import Mathlib

/-!
Verification of the chess-repertoire-trainer core against its specification.

This file gives a shallow embedding of the repository's core algorithms:

* the move-tree data model and its edit operations
  (`src/utils/repertoire-tree.ts`: `findNode`, `insertMove`, `deleteSubtree`,
  `promoteVariation`, `mergeTrees`, `extractAllLines`),
* the SM-2 spaced-repetition scheduler (`src/utils/sm2.ts`),
* the PGN tokenizer, preprocessor and recursive-descent variation parser
  (`src/utils/pgn-parser.ts`).

Modelling conventions:

* A JavaScript `MoveNode[]` children array is the inductive `MoveForest`
  (an ordered list, `MoveForest.cons` = array element followed by the rest).
  `MoveNode` and `MoveForest` are mutual so that all functions are
  structurally recursive and computable by the kernel.
* Opaque string ids produced by `generateId()` are modelled as `Nat` values
  supplied by the caller / threaded as a counter; the source guarantees
  freshness, which theorems take as a hypothesis where needed.
* A chess.js position is abstracted by its move history from the standard
  initial position (`Fen := List String`); a FEN string is an injective
  encoding of a position, so this models it faithfully for the parser,
  which treats FENs as opaque snapshots.  Move legality is delegated to an
  oracle parameter, exactly as the spec describes chess.js.
* JavaScript numbers in the SM-2 scheduler are modelled as `ℚ` with
  `Math.round x = ⌊x + 1/2⌋`.
* In-place mutation through references returned by `findNode` is modelled
  by updating the first node in the identical pre-order traversal.
-/

/-! ## Data model (`src/types/repertoire.ts`) -/

/-- Abstract position encoding: the move history (canonical SAN) leading to the
position from the standard initial position.  Stands in for a FEN string. -/
abbrev Fen := List String

/-- The scalar fields of a `MoveNode` (everything except `children`). -/
structure MoveData where
  id : Nat
  san : String
  fen : Fen
  parentId : Option Nat
  comment : String
  arrows : List String
  highlights : List String
  nags : List Nat
  isMainline : Bool
  moveNumber : Nat
  plyFromRoot : Nat
  openingName : String
deriving DecidableEq, Repr

mutual
/-- A move node: scalar data plus the ordered children array. -/
inductive MoveNode where
  | mk (data : MoveData) (children : MoveForest)
deriving DecidableEq, Repr
/-- An ordered array of `MoveNode`s (a JS `MoveNode[]`). -/
inductive MoveForest where
  | nil
  | cons (hd : MoveNode) (tl : MoveForest)
deriving DecidableEq, Repr
end

def MoveNode.data : MoveNode → MoveData
  | .mk d _ => d

def MoveNode.children : MoveNode → MoveForest
  | .mk _ c => c

def MoveNode.withChildren : MoveNode → MoveForest → MoveNode
  | .mk d _, c => .mk d c

def MoveNode.withMainline : MoveNode → Bool → MoveNode
  | .mk d c, b => .mk { d with isMainline := b } c

def MoveForest.append : MoveForest → MoveForest → MoveForest
  | .nil, g => g
  | .cons n t, g => .cons n (t.append g)

/-- A one-element forest. -/
def MoveForest.single (n : MoveNode) : MoveForest := .cons n .nil

def MoveForest.isEmpty : MoveForest → Bool
  | .nil => true
  | .cons _ _ => false

def MoveForest.toList : MoveForest → List MoveNode
  | .nil => []
  | .cons n t => n :: t.toList

def MoveForest.ofList : List MoveNode → MoveForest
  | [] => .nil
  | n :: t => .cons n (MoveForest.ofList t)

/-- `tree.children` plus the starting position (`RepertoireTree`). -/
structure RepertoireTree where
  rootFen : Fen
  children : MoveForest
deriving DecidableEq, Repr

/-- A derived root-to-leaf line (`RepertoireLine`).  The per-call fresh line
ids of `generateId()` are modelled as the index of the line in the result. -/
structure RepertoireLine where
  id : Nat
  repertoireId : String
  moveNodeIds : List Nat
  sanSequence : List String
  displayName : String
  terminalFen : Fen
  openingName : String
deriving DecidableEq, Repr

/-! ## Tree lookup (`findNode`, `findNodeInSubtree`) -/

mutual
/-- `findNodeInSubtree`: the node itself first, then its children in order. -/
def findNodeInSubtree : MoveNode → Nat → Option MoveNode
  | .mk d cs, nodeId =>
    if d.id = nodeId then some (.mk d cs) else findNodeInForest cs nodeId
/-- Pre-order search over a children array, as `findNode` iterates. -/
def findNodeInForest : MoveForest → Nat → Option MoveNode
  | .nil, _ => none
  | .cons n t, nodeId =>
    match findNodeInSubtree n nodeId with
    | some found => some found
    | none => findNodeInForest t nodeId
end

/-- `findNode`: find a node by id anywhere in the tree. -/
def findNode (tree : RepertoireTree) (nodeId : Nat) : Option MoveNode :=
  findNodeInForest tree.children nodeId

/-! ## insertMove

The source deep-clones, looks the parent up by id and pushes onto the found
node's `children` in place.  `pushChild` performs the identical pre-order
search and pushes onto the first node with the given id, additionally
returning the `isMainline` flag the new child received
(`parent.children.length === 0` before the push). -/

mutual
def pushChildInSubtree (parentId : Nat) (child : MoveNode) :
    MoveNode → Option (MoveNode × Bool)
  | .mk d cs =>
    if d.id = parentId then
      let flag := cs.isEmpty
      some (.mk d (cs.append (.single (child.withMainline flag))), flag)
    else
      match pushChildInForest parentId child cs with
      | some (cs', flag) => some (.mk d cs', flag)
      | none => none
def pushChildInForest (parentId : Nat) (child : MoveNode) :
    MoveForest → Option (MoveForest × Bool)
  | .nil => none
  | .cons n t =>
    match pushChildInSubtree parentId child n with
    | some (n', flag) => some (.cons n' t, flag)
    | none =>
      match pushChildInForest parentId child t with
      | some (t', flag) => some (.cons n t', flag)
      | none => none
end

structure InsertResult where
  tree : RepertoireTree
  newNode : MoveNode
deriving DecidableEq, Repr

/-- The freshly constructed node of `insertMove` before attachment
(`comment: '', arrows: [], ..., isMainline: false`). -/
def freshNode (newId : Nat) (san : String) (fen : Fen) (parentId : Option Nat)
    (moveNumber plyFromRoot : Nat) : MoveNode :=
  .mk { id := newId, san := san, fen := fen, parentId := parentId,
        comment := "", arrows := [], highlights := [], nags := [],
        isMainline := false, moveNumber := moveNumber,
        plyFromRoot := plyFromRoot, openingName := "" } .nil

/-- `insertMove(tree, parentId, san, fen, moveNumber, plyFromRoot)`.
`newId` is the value `generateId()` produced for the new node. -/
def insertMove (tree : RepertoireTree) (parentId : Option Nat) (san : String)
    (fen : Fen) (moveNumber plyFromRoot : Nat) (newId : Nat) : InsertResult :=
  let base := freshNode newId san fen parentId moveNumber plyFromRoot
  match parentId with
  | none =>
    let newNode := base.withMainline tree.children.isEmpty
    { tree := { tree with children := tree.children.append (.single newNode) },
      newNode := newNode }
  | some pid =>
    match pushChildInForest pid base tree.children with
    | none => { tree := tree, newNode := base }
    | some (cs, flag) =>
      { tree := { tree with children := cs }, newNode := base.withMainline flag }

/-! ## deleteSubtree -/

/-- `removeFromChildren`: drop every node with the id at this level, and
recurse into the children of the survivors (source: `filter` then `map`). -/
def removeFromChildren : MoveForest → Nat → MoveForest
  | .nil, _ => .nil
  | .cons (.mk d cs) t, nodeId =>
    if d.id = nodeId then removeFromChildren t nodeId
    else .cons (.mk d (removeFromChildren cs nodeId)) (removeFromChildren t nodeId)

/-- `deleteSubtree(tree, nodeId)`. -/
def deleteSubtree (tree : RepertoireTree) (nodeId : Nat) : RepertoireTree :=
  { tree with children := removeFromChildren tree.children nodeId }

/-! ## promoteVariation -/

/-- The source passes the parent as a string id, with `'__root__'` as a
sentinel selecting the root children array. -/
inductive ParentRef where
  | rootSentinel
  | node (id : Nat)
deriving DecidableEq, Repr

mutual
/-- Update the first node (in `findNode`'s pre-order) with the given id.
`none` when no node matches; the source then returns the tree unchanged. -/
def updateFirstInSubtree (nodeId : Nat) (f : MoveNode → MoveNode) :
    MoveNode → Option MoveNode
  | .mk d cs =>
    if d.id = nodeId then some (f (.mk d cs))
    else
      match updateFirstInForest nodeId f cs with
      | some cs' => some (.mk d cs')
      | none => none
def updateFirstInForest (nodeId : Nat) (f : MoveNode → MoveNode) :
    MoveForest → Option MoveForest
  | .nil => none
  | .cons n t =>
    match updateFirstInSubtree nodeId f n with
    | some n' => some (.cons n' t)
    | none =>
      match updateFirstInForest nodeId f t with
      | some t' => some (.cons n t')
      | none => none
end

/-- The splice/unshift surgery both branches of `promoteVariation` perform on
a sibling array: if `childId` sits at an index `idx > 0`, remove it, flip the
(old) first sibling's flag off, set the promoted node's flag and unshift it. -/
def promoteInList (cs : MoveForest) (childId : Nat) : MoveForest :=
  let l := cs.toList
  match l.findIdx? (fun c => c.data.id = childId) with
  | none => cs
  | some idx =>
    if idx = 0 then cs
    else
      match l.get? idx, l.eraseIdx idx with
      | some promoted, c0 :: rest =>
        .ofList ((promoted.withMainline true) :: (c0.withMainline false) :: rest)
      | _, _ => cs

/-- `promoteVariation(tree, parentId, childId)`. -/
def promoteVariation (tree : RepertoireTree) (parent : ParentRef)
    (childId : Nat) : RepertoireTree :=
  match parent with
  | .rootSentinel => { tree with children := promoteInList tree.children childId }
  | .node pid =>
    match updateFirstInForest pid
        (fun p => p.withChildren (promoteInList p.children childId)) tree.children with
    | some cs => { tree with children := cs }
    | none => tree

/-! ## mergeTrees -/

/-- `merged.find(c => c.san === impChild.san)`: first sibling with the SAN. -/
def findBySan (san : String) : MoveForest → Option MoveNode
  | .nil => none
  | .cons n t => if n.data.san = san then some n else findBySan san t

/-- Replace the first sibling with the given SAN (the in-place mutation of
the node `merged.find` returned). -/
def replaceBySan (san : String) (r : MoveNode) : MoveForest → MoveForest
  | .nil => .nil
  | .cons n t => if n.data.san = san then .cons r t else .cons n (replaceBySan san r t)

/-- The comment/arrows/highlights fill-in the source applies to a matched
node (imported side only fills empty existing fields). -/
def fillFrom (m : MoveNode) (impData : MoveData) : MoveNode :=
  match m with
  | .mk d cs =>
    let d1 := if impData.comment ≠ "" ∧ d.comment = "" then
        { d with comment := impData.comment } else d
    let d2 := if impData.arrows ≠ [] ∧ d1.arrows = [] then
        { d1 with arrows := impData.arrows } else d1
    let d3 := if impData.highlights ≠ [] ∧ d2.highlights = [] then
        { d2 with highlights := impData.highlights } else d2
    .mk d3 cs

/-- `mergeChildren(existingChildren, importedChildren)`: fold the imported
siblings into the existing array, matching by SAN. -/
def mergeChildren (ex : MoveForest) : MoveForest → MoveForest
  | .nil => ex
  | .cons (.mk dImp kidsImp) tl =>
    let merged :=
      match findBySan dImp.san ex with
      | none => ex.append (.single ((MoveNode.mk dImp kidsImp).withMainline false))
      | some m =>
        let newKids := mergeChildren m.children kidsImp
        replaceBySan dImp.san (fillFrom (m.withChildren newKids) dImp) ex
    mergeChildren merged tl

/-- `mergeTrees(existing, imported)`. -/
def mergeTrees (existing imported : RepertoireTree) : RepertoireTree :=
  { existing with children := mergeChildren existing.children imported.children }

/-! ## Line extraction (`extractAllLines`) -/

/-- `findOpeningName`: the deepest non-empty opening name on the path. -/
def findOpeningName (path : List MoveNode) : String :=
  match path.reverse.find? (fun n => decide (n.data.openingName ≠ "")) with
  | some n => n.data.openingName
  | none => ""

/-- One token of `formatLineName`: `"<moveNumber>. <san>"` at even indices,
bare SAN at odd indices. -/
def lineNameToken (i : Nat) (n : MoveNode) : String :=
  if i % 2 = 0 then toString n.data.moveNumber ++ ". " ++ n.data.san
  else n.data.san

/-- `formatLineName`: first six plies, with a trailing ellipsis marker when
the path is longer. -/
def formatLineName (path : List MoveNode) : String :=
  String.intercalate " " ((path.take 6).mapIdx lineNameToken)
    ++ (if path.length > 6 then " ..." else "")

/-- Build the `RepertoireLine` pushed at a leaf (line id filled in later:
`generateId()` is fresh per line, modelled as the line's index). -/
def lineOfPath (repertoireId : String) (currentPath : List MoveNode)
    (terminalFen : Fen) : RepertoireLine :=
  let oname := findOpeningName currentPath
  { id := 0, repertoireId := repertoireId,
    moveNodeIds := currentPath.map (fun n => n.data.id),
    sanSequence := currentPath.map (fun n => n.data.san),
    displayName := if oname ≠ "" then oname else formatLineName currentPath,
    terminalFen := terminalFen, openingName := oname }

mutual
/-- The `walk` of `extractAllLines`: collect a line at each leaf. -/
def walkNode (repertoireId : String) : MoveNode → List MoveNode → List RepertoireLine
  | .mk d cs, path =>
    match cs with
    | .nil => [lineOfPath repertoireId (path ++ [MoveNode.mk d cs]) d.fen]
    | .cons hd tl =>
      walkForest repertoireId (.cons hd tl) (path ++ [MoveNode.mk d (.cons hd tl)])
def walkForest (repertoireId : String) : MoveForest → List MoveNode → List RepertoireLine
  | .nil, _ => []
  | .cons n t, path => walkNode repertoireId n path ++ walkForest repertoireId t path
end

/-- `extractAllLines(tree, repertoireId)`. -/
def extractAllLines (tree : RepertoireTree) (repertoireId : String) :
    List RepertoireLine :=
  (walkForest repertoireId tree.children []).mapIdx (fun i l => { l with id := i })

/-! ## SM-2 scheduler (`src/utils/sm2.ts`, constants from `src/data/constants.ts`)

JavaScript numbers are modelled as `ℚ`; the decimal literals `0.1`, `0.08`,
`0.02`, `1.3` denote the exact rationals. -/

def SM2_MIN_EASE_FACTOR : ℚ := 1.3
def SM2_FIRST_INTERVAL : ℚ := 1
def SM2_SECOND_INTERVAL : ℚ := 6

structure SM2Input where
  quality : ℚ
  repetitions : ℚ
  easeFactor : ℚ
  interval : ℚ
deriving DecidableEq, Repr

structure SM2Result where
  interval : ℚ
  repetitions : ℚ
  easeFactor : ℚ
deriving DecidableEq, Repr

/-- `Math.round` (round half toward positive infinity). -/
def jsRound (x : ℚ) : ℚ := ((⌊x + 1/2⌋ : ℤ) : ℚ)

/-- `sm2(input)`: the pure SM-2 update. -/
def sm2 (input : SM2Input) : SM2Result :=
  let newEase0 := input.easeFactor
    + (0.1 - (5 - input.quality) * (0.08 + (5 - input.quality) * 0.02))
  let newEaseFactor :=
    if newEase0 < SM2_MIN_EASE_FACTOR then SM2_MIN_EASE_FACTOR else newEase0
  if 3 ≤ input.quality then
    { interval :=
        if input.repetitions = 0 then SM2_FIRST_INTERVAL
        else if input.repetitions = 1 then SM2_SECOND_INTERVAL
        else jsRound (input.interval * input.easeFactor),
      repetitions := input.repetitions + 1,
      easeFactor := newEaseFactor }
  else
    { interval := SM2_FIRST_INTERVAL, repetitions := 0, easeFactor := newEaseFactor }

/-! ## PGN tokenizer (`tokenize` in `src/utils/pgn-parser.ts`)

The tokenizer scans character by character with anchored regular-expression
matches.  Each regex of the source is modelled by an explicit matcher on
`List Char` returning `(consumed, rest)`, with the same ordered-alternative /
greedy-optional backtracking semantics as the JavaScript engine. -/

/-- The JavaScript `\s` class (on the characters this input domain uses). -/
def jsSpace (c : Char) : Bool :=
  c == ' ' || c == '\t' || c == '\n' || c == '\r' || c == '\x0b' ||
    c == '\x0c' || c == ' '

/-- `String.prototype.trim`. -/
def trimChars (s : List Char) : List Char :=
  ((s.dropWhile jsSpace).reverse.dropWhile jsSpace).reverse

/-- Split at the first `'}'` (`indexOf('}', i + 1)`):
`some (before, after)` or `none` when there is no closing brace. -/
def splitAtClose : List Char → Option (List Char × List Char)
  | [] => none
  | c :: rest =>
    if c = '\x7d' then some ([], rest)
    else (splitAtClose rest).map (fun p => (c :: p.1, p.2))

/-- Split at the first `']'` (for the `[^\]]*\]` annotation patterns). -/
def splitAtBracketClose : List Char → Option (List Char × List Char)
  | [] => none
  | c :: rest =>
    if c = ']' then some ([], rest)
    else (splitAtBracketClose rest).map (fun p => (c :: p.1, p.2))

/-- Match a literal string at the head, returning the rest. -/
def dropLit : List Char → List Char → Option (List Char)
  | [], s => some s
  | _ :: _, [] => none
  | p :: ps, c :: cs => if c = p then dropLit ps cs else none

/-- The maximal leading digit run (`\d+` is never backtracked here because a
shorter run would put a digit where a non-digit is required). -/
def takeDigits : List Char → (List Char × List Char)
  | [] => ([], [])
  | c :: rest =>
    if c.isDigit then
      let p := takeDigits rest
      (c :: p.1, p.2)
    else ([], c :: rest)

/-- `parseInt(_, 10)` on a digit run. -/
def digitsToNat (ds : List Char) : Nat :=
  List.foldl (fun acc c => acc * 10 + (c.toNat - '0'.toNat)) 0 ds

/-- `^(1-0|0-1|1\/2-1\/2|\*)`: ordered alternatives of literals. -/
def matchResult (s : List Char) : Option (List Char × List Char) :=
  match dropLit ['1', '-', '0'] s with
  | some r => some (['1', '-', '0'], r)
  | none =>
    match dropLit ['0', '-', '1'] s with
    | some r => some (['0', '-', '1'], r)
    | none =>
      match dropLit ['1', '/', '2', '-', '1', '/', '2'] s with
      | some r => some (['1', '/', '2', '-', '1', '/', '2'], r)
      | none =>
        match dropLit ['*'] s with
        | some r => some (['*'], r)
        | none => none

/-- `^(\d+)\.(\.\.)?`: digits, a dot, and optionally two further dots. -/
def matchMoveNum (s : List Char) : Option (List Char × List Char) :=
  let p := takeDigits s
  if p.1.isEmpty then none
  else
    match p.2 with
    | '.' :: r2 =>
      match r2 with
      | '.' :: '.' :: r3 => some (p.1 ++ ['.', '.', '.'], r3)
      | _ => some (p.1 ++ ['.'], r2)
    | _ => none

def isPieceCh (c : Char) : Bool :=
  c == 'K' || c == 'Q' || c == 'R' || c == 'B' || c == 'N' || c == 'P'

def isFileCh (c : Char) : Bool := 'a' ≤ c && c ≤ 'h'

def isRankCh (c : Char) : Bool := '1' ≤ c && c ≤ '8'

def isPromoCh (c : Char) : Bool := c == 'Q' || c == 'R' || c == 'B' || c == 'N'

def isCheckCh (c : Char) : Bool := c == '+' || c == '#'

/-- A greedy optional single-character class `X?` followed by continuation
`k`: try consuming first, backtrack to not consuming if `k` then fails. -/
def tryOpt (p : Char → Bool) (k : List Char → Option (List Char × List Char)) :
    List Char → Option (List Char × List Char)
  | [] => k []
  | c :: rest =>
    if p c then
      match k rest with
      | some q => some (c :: q.1, q.2)
      | none => k (c :: rest)
    else k (c :: rest)

/-- `(?:=[QRBN])?[+#]?`: two greedy optionals that nothing can force to
backtrack. -/
def sanTail (s : List Char) : (List Char × List Char) :=
  let p :=
    match s with
    | '=' :: c :: rest => if isPromoCh c then (['=', c], rest) else (([] : List Char), s)
    | _ => (([] : List Char), s)
  match p.2 with
  | c :: rest => if isCheckCh c then (p.1 ++ [c], rest) else p
  | [] => p

/-- The mandatory `[a-h][1-8]` destination plus `sanTail`. -/
def sanCore : List Char → Option (List Char × List Char)
  | f :: r :: rest =>
    if isFileCh f && isRankCh r then
      let p := sanTail rest
      some (f :: r :: p.1, p.2)
    else none
  | _ => none

/-- `[KQRBNP]?[a-h]?[1-8]?x?` prefix (four greedy optionals) before
`sanCore`. -/
def sanBody : List Char → Option (List Char × List Char) :=
  tryOpt isPieceCh (tryOpt isFileCh (tryOpt isRankCh (tryOpt (fun c => c == 'x') sanCore)))

/-- `^([KQRBNP]?[a-h]?[1-8]?x?[a-h][1-8](?:=[QRBN])?[+#]?|O-O-O|O-O)[+#]?`. -/
def matchSAN (s : List Char) : Option (List Char × List Char) :=
  let g :=
    match sanBody s with
    | some q => some q
    | none =>
      match dropLit ['O', '-', 'O', '-', 'O'] s with
      | some r => some ((['O', '-', 'O', '-', 'O'] : List Char), r)
      | none =>
        match dropLit ['O', '-', 'O'] s with
        | some r => some ((['O', '-', 'O'] : List Char), r)
        | none => none
  match g with
  | none => none
  | some q =>
    match q.2 with
    | c :: rest => if isCheckCh c then some (q.1 ++ [c], rest) else some q
    | [] => some q

/-- The token stream of the tokenizer. -/
inductive Token where
  | move (value : String)
  | moveNumber (value : String)
  | nag (value : Nat)
  | comment (value : String)
  | openParen
  | closeParen
  | result (value : String)
deriving DecidableEq, Repr

/-- The scanning loop of `tokenize`.  Every step consumes at least one
character, so `fuel = length of the input` always suffices. -/
def tokenizeAux : Nat → List Char → List Token
  | _, [] => []
  | 0, _ :: _ => []
  | fuel + 1, c :: rest =>
    if jsSpace c then tokenizeAux fuel rest
    else if c = '\x7b' then
      match splitAtClose rest with
      | none => []
      | some p =>
        let cm := trimChars p.1
        if cm.isEmpty then tokenizeAux fuel p.2
        else .comment (String.mk cm) :: tokenizeAux fuel p.2
    else if c = '(' then .openParen :: tokenizeAux fuel rest
    else if c = ')' then .closeParen :: tokenizeAux fuel rest
    else if c = '$' then
      let p := takeDigits rest
      if p.1.isEmpty then tokenizeAux fuel p.2
      else .nag (digitsToNat p.1) :: tokenizeAux fuel p.2
    else
      match matchResult (c :: rest) with
      | some q => .result (String.mk q.1) :: tokenizeAux fuel q.2
      | none =>
        match matchMoveNum (c :: rest) with
        | some q => .moveNumber (String.mk q.1) :: tokenizeAux fuel q.2
        | none =>
          match matchSAN (c :: rest) with
          | some q => .move (String.mk q.1) :: tokenizeAux fuel q.2
          | none => tokenizeAux fuel rest

/-- `tokenize(movetext)`. -/
def tokenize (movetext : String) : List Token :=
  tokenizeAux movetext.data.length movetext.data

/-! ## PGN preprocessing (`preprocessPGN`)

Each global regex replacement of the source is one left-to-right scanner. -/

/-- `\[%xxx[^\]]*\]` removal (used for `[%evp`, `[%emt`, and the comment
directive patterns `[%cal `, `[%csl `): on a match skip through the first
`']'`, otherwise keep one character and rescan. -/
def stripAnnTag (tag : List Char) : Nat → List Char → List Char
  | _, [] => []
  | 0, s => s
  | fuel + 1, c :: rest =>
    match dropLit tag (c :: rest) with
    | some r1 =>
      match splitAtBracketClose r1 with
      | some p => stripAnnTag tag fuel p.2
      | none => c :: stripAnnTag tag fuel rest
    | none => c :: stripAnnTag tag fuel rest

/-- Global removal of a literal (the `\[#\]` markers). -/
def stripLit (lit : List Char) : Nat → List Char → List Char
  | _, [] => []
  | 0, s => s
  | fuel + 1, c :: rest =>
    match dropLit lit (c :: rest) with
    | some r1 => stripLit lit fuel r1
    | none => c :: stripLit lit fuel rest

/-- The JavaScript word-character class `\w` (for `\b`). -/
def isWordCh (c : Char) : Bool :=
  c.isAlpha || c.isDigit || c == '_'

/-- `\bZ0\b` removal.  `prev` is the character before the scan position in
the original string (word-boundary context). -/
def stripZ0 : Nat → Option Char → List Char → List Char
  | _, _, [] => []
  | 0, _, s => s
  | fuel + 1, prev, c :: rest =>
    let prevWord := match prev with | some p => isWordCh p | none => false
    if c = 'Z' ∧ ¬prevWord = true then
      match rest with
      | '0' :: r2 =>
        let nextWord := match r2 with | x :: _ => isWordCh x | [] => false
        if nextWord then c :: stripZ0 fuel (some c) rest
        else stripZ0 fuel (some '0') r2
      | _ => c :: stripZ0 fuel (some c) rest
    else c :: stripZ0 fuel (some c) rest

/-- `\{[\s]*\}` removal (empty comments). -/
def stripEmptyComments : Nat → List Char → List Char
  | _, [] => []
  | 0, s => s
  | fuel + 1, c :: rest =>
    if c = '\x7b' then
      match rest.dropWhile jsSpace with
      | '\x7d' :: r2 => stripEmptyComments fuel r2
      | _ => c :: stripEmptyComments fuel rest
    else c :: stripEmptyComments fuel rest

/-- `\s{2,}` → `' '` (runs of two or more whitespace characters collapse to
one space; a single whitespace character is left as it is). -/
def collapseSpaces : Nat → List Char → List Char
  | _, [] => []
  | 0, s => s
  | fuel + 1, c :: rest =>
    if jsSpace c then
      match rest with
      | c2 :: _ =>
        if jsSpace c2 then ' ' :: collapseSpaces fuel (rest.dropWhile jsSpace)
        else c :: collapseSpaces fuel rest
      | [] => [c]
    else c :: collapseSpaces fuel rest

/-- `preprocessPGN(pgn)`: the five replacement passes, in source order. -/
def preprocessPGN (pgn : String) : String :=
  let s0 := pgn.data
  let s1 := stripAnnTag ['[', '%', 'e', 'v', 'p'] s0.length s0
  let s2 := stripAnnTag ['[', '%', 'e', 'm', 't'] s1.length s1
  let s3 := stripLit ['[', '#', ']'] s2.length s2
  let s4 := stripZ0 s3.length none s3
  let s5 := stripEmptyComments s4.length s4
  let s6 := collapseSpaces s5.length s5
  String.mk s6

/-! ## Comment directive extraction (`extractAnnotations` in the source) -/

/-- Collect the contents of every `\[%xxx ([^\]]+)\]` match (the extraction
regexes require a non-empty body). -/
def collectTagBodies (tag : List Char) : Nat → List Char → List (List Char)
  | _, [] => []
  | 0, _ => []
  | fuel + 1, c :: rest =>
    match dropLit tag (c :: rest) with
    | some r1 =>
      match splitAtBracketClose r1 with
      | some p =>
        if p.1.isEmpty then collectTagBodies tag fuel rest
        else p.1 :: collectTagBodies tag fuel p.2
      | none => collectTagBodies tag fuel rest
    | none => collectTagBodies tag fuel rest

/-- `inner.split(',').map(s => s.trim()).filter(Boolean)`. -/
def splitTrimCommas (inner : List Char) : List String :=
  (((inner.splitOn ',').map trimChars).filter (fun l => !l.isEmpty)).map String.mk

/-- `extractAnnotations(comment)` → (arrows, highlights, cleanComment):
extract `[%cal ...]`, strip them, extract `[%csl ...]` from the stripped
text, strip those too, then collapse runs of whitespace and trim. -/
def extractDirectives (comment : List Char) :
    (List String × List String × List Char) :=
  let calTag : List Char := ['[', '%', 'c', 'a', 'l', ' ']
  let cslTag : List Char := ['[', '%', 'c', 's', 'l', ' ']
  let arrows := (collectTagBodies calTag comment.length comment).flatMap splitTrimCommas
  let c1 := stripAnnTag calTag comment.length comment
  let highlights := (collectTagBodies cslTag c1.length c1).flatMap splitTrimCommas
  let c2 := stripAnnTag cslTag c1.length c1
  (arrows, highlights, trimChars (collapseSpaces c2.length c2))

/-! ## The variation parser (`parseTokens` / `parseVariation`)

Modelling notes:

* chess.js is abstracted: an `Oracle` answers `chess.move(san)` (canonical
  SAN for a legal move, `none` for an illegal one); a `ChessSt` carries the
  position the instance was constructed from (`base`) plus its `history()`.
  `load` and the fresh-instance constructor `new Chess(fen)` reset the
  history, exactly as chess.js does.
* The shared token cursor `pos` is modelled by returning the remaining
  token list.
* The source mutates nodes through the `lastNode` reference / the
  `findNodeById` result; both always designate the first node with that id
  in this scope's `children` forest, so the mutation is performed by the
  id-directed update functions above.
* The loops consume at least one token per step and recursion descends only
  after consuming the opening parenthesis, so `fuel = tokens.length + 1`
  always suffices; the fuel-exhausted branches are unreachable. -/

/-- The move-legality oracle: position → SAN text → canonical SAN. -/
abbrev Oracle := Fen → String → Option String

/-- A chess.js instance: construction position plus move history. -/
structure ChessSt where
  base : Fen
  hist : List String
deriving DecidableEq, Repr

/-- `chess.fen()`: the current position. -/
def ChessSt.fen (c : ChessSt) : Fen := c.base ++ c.hist

/-- `new Chess()`. -/
def ChessSt.start : ChessSt := ⟨[], []⟩

/-- `new Chess(fen)` / `chess.load(fen)`: history is reset. -/
def ChessSt.loadFen (f : Fen) : ChessSt := ⟨f, []⟩

/-- `chess.undo()`. -/
def ChessSt.undo (c : ChessSt) : ChessSt := ⟨c.base, c.hist.dropLast⟩

/-- `chess.move(san)`. -/
def ChessSt.playMove (oracle : Oracle) (c : ChessSt) (san : String) :
    Option (String × ChessSt) :=
  match oracle c.fen san with
  | some canon => some (canon, ⟨c.base, c.hist ++ [canon]⟩)
  | none => none

/-- Comment attachment to `lastNode` (concatenate with a space separator;
arrows/highlights always append). -/
def attachCommentTo (clean : List Char) (ar hi : List String) :
    MoveNode → MoveNode
  | .mk d cs =>
    let d1 :=
      if clean.isEmpty then d
      else if d.comment = "" then { d with comment := String.mk clean }
      else { d with comment := d.comment ++ " " ++ String.mk clean }
    .mk { d1 with arrows := d1.arrows ++ ar, highlights := d1.highlights ++ hi } cs

/-- NAG attachment to `lastNode`. -/
def attachNag (v : Nat) : MoveNode → MoveNode
  | .mk d cs => .mk { d with nags := d.nags ++ [v] } cs

/-- `updateFirstInForest` with the source's behaviour on a missing id
(leave the forest unchanged). -/
def updateFirstF (forest : MoveForest) (nodeId : Nat) (f : MoveNode → MoveNode) :
    MoveForest :=
  (updateFirstInForest nodeId f forest).getD forest

/-- `varChild.isMainline = false` over a variation's root siblings. -/
def markAllNotMainline : MoveForest → MoveForest
  | .nil => .nil
  | .cons n t => .cons (n.withMainline false) (markAllNotMainline t)

/-- `parseVariation(tokens, chess, children, parentId, openingName, pos)`.
Returns the built sibling array, the remaining tokens, and the id counter.
`openingName` is threaded but (as in the source) never used here. -/
def parseVariationAux (oracle : Oracle) :
    Nat → List Token → ChessSt → MoveForest → Option Nat → String →
    Option Nat → List Nat → Nat → (MoveForest × List Token × Nat)
  | _, [], _, children, _, _, _, _, nextId => (children, [], nextId)
  | 0, toks, _, children, _, _, _, _, nextId => (children, toks, nextId)
  | fuel + 1, tok :: rest, chess, children, parentId, openingName, lastId, pending, nextId =>
    match tok with
    | .closeParen => (children, rest, nextId)
    | .result _ =>
      parseVariationAux oracle fuel rest chess children parentId openingName lastId pending nextId
    | .moveNumber _ =>
      parseVariationAux oracle fuel rest chess children parentId openingName lastId pending nextId
    | .comment v =>
      match lastId with
      | some l =>
        let e := extractDirectives v.data
        parseVariationAux oracle fuel rest chess
          (updateFirstF children l (attachCommentTo e.2.2 e.1 e.2.1))
          parentId openingName lastId pending nextId
      | none =>
        parseVariationAux oracle fuel rest chess children parentId openingName lastId pending nextId
    | .nag v =>
      match lastId with
      | some l =>
        parseVariationAux oracle fuel rest chess
          (updateFirstF children l (attachNag v)) parentId openingName lastId pending nextId
      | none =>
        parseVariationAux oracle fuel rest chess children parentId openingName lastId
          (pending ++ [v]) nextId
    | .move v =>
      match chess.playMove oracle v with
      | none =>
        parseVariationAux oracle fuel rest chess children parentId openingName lastId pending nextId
      | some (canon, chess') =>
        let currentPly := chess'.hist.length
        let node := MoveNode.mk
          { id := nextId, san := canon, fen := chess'.fen,
            parentId := (match lastId with | some l => some l | none => parentId),
            comment := "", arrows := [], highlights := [], nags := pending,
            isMainline := false, moveNumber := (currentPly + 1) / 2,
            plyFromRoot := currentPly, openingName := "" } .nil
        match lastId with
        | some l =>
          let children' :=
            match pushChildInForest l node children with
            | some p => p.1
            | none => children
          parseVariationAux oracle fuel rest chess' children' parentId openingName
            (some nextId) [] (nextId + 1)
        | none =>
          parseVariationAux oracle fuel rest chess' (children.append (.single node))
            parentId openingName (some nextId) [] (nextId + 1)
    | .openParen =>
      match lastId with
      | none =>
        parseVariationAux oracle fuel rest chess children parentId openingName lastId pending nextId
      | some l =>
        match findNodeInForest children l with
        | none =>
          parseVariationAux oracle fuel rest chess children parentId openingName lastId pending nextId
        | some ln =>
          let savedFen := chess.fen
          let subChess := ChessSt.loadFen chess.undo.fen
          let sub := parseVariationAux oracle fuel rest subChess .nil ln.data.parentId
            openingName none [] nextId
          let subKids := markAllNotMainline sub.1
          let children' :=
            match ln.data.parentId with
            | some ap =>
              match updateFirstInForest ap
                  (fun p => p.withChildren (p.children.append subKids)) children with
              | some cs => cs
              | none => children.append subKids
            | none => children.append subKids
          parseVariationAux oracle fuel sub.2.1 (ChessSt.loadFen savedFen) children'
            parentId openingName lastId pending sub.2.2

/-- `parseTokens(tokens, chess, children, parentId, _plyOffset, openingName,
pos)` — the main scope.  Differs from `parseVariation` in the first-move
mainline/opening-name computation and in recursing into `parseVariation`
for nested scopes. -/
def parseTokensAux (oracle : Oracle) :
    Nat → List Token → ChessSt → MoveForest → Option Nat → String →
    Option Nat → List Nat → Nat → (MoveForest × List Token × Nat)
  | _, [], _, children, _, _, _, _, nextId => (children, [], nextId)
  | 0, toks, _, children, _, _, _, _, nextId => (children, toks, nextId)
  | fuel + 1, tok :: rest, chess, children, parentId, openingName, lastId, pending, nextId =>
    match tok with
    | .closeParen => (children, rest, nextId)
    | .result _ =>
      parseTokensAux oracle fuel rest chess children parentId openingName lastId pending nextId
    | .moveNumber _ =>
      parseTokensAux oracle fuel rest chess children parentId openingName lastId pending nextId
    | .comment v =>
      match lastId with
      | some l =>
        let e := extractDirectives v.data
        parseTokensAux oracle fuel rest chess
          (updateFirstF children l (attachCommentTo e.2.2 e.1 e.2.1))
          parentId openingName lastId pending nextId
      | none =>
        parseTokensAux oracle fuel rest chess children parentId openingName lastId pending nextId
    | .nag v =>
      match lastId with
      | some l =>
        parseTokensAux oracle fuel rest chess
          (updateFirstF children l (attachNag v)) parentId openingName lastId pending nextId
      | none =>
        parseTokensAux oracle fuel rest chess children parentId openingName lastId
          (pending ++ [v]) nextId
    | .move v =>
      match chess.playMove oracle v with
      | none =>
        parseTokensAux oracle fuel rest chess children parentId openingName lastId pending nextId
      | some (canon, chess') =>
        let currentPly := chess'.hist.length
        let firstHere := children.isEmpty && lastId.isNone
        let node := MoveNode.mk
          { id := nextId, san := canon, fen := chess'.fen,
            parentId := (match lastId with | some l => some l | none => parentId),
            comment := "", arrows := [], highlights := [], nags := pending,
            isMainline := firstHere, moveNumber := (currentPly + 1) / 2,
            plyFromRoot := currentPly,
            openingName := if firstHere then openingName else "" } .nil
        match lastId with
        | some l =>
          let children' :=
            match pushChildInForest l node children with
            | some p => p.1
            | none => children
          parseTokensAux oracle fuel rest chess' children' parentId openingName
            (some nextId) [] (nextId + 1)
        | none =>
          parseTokensAux oracle fuel rest chess'
            (children.append (.single (node.withMainline children.isEmpty)))
            parentId openingName (some nextId) [] (nextId + 1)
    | .openParen =>
      match lastId with
      | none =>
        parseTokensAux oracle fuel rest chess children parentId openingName lastId pending nextId
      | some l =>
        match findNodeInForest children l with
        | none =>
          parseTokensAux oracle fuel rest chess children parentId openingName lastId pending nextId
        | some ln =>
          let savedFen := chess.fen
          let variationChess := ChessSt.loadFen chess.undo.fen
          let sub := parseVariationAux oracle fuel rest variationChess .nil
            ln.data.parentId openingName none [] nextId
          let subKids := markAllNotMainline sub.1
          let children' :=
            match ln.data.parentId with
            | some ap =>
              match updateFirstInForest ap
                  (fun p => p.withChildren (p.children.append subKids)) children with
              | some cs => cs
              | none => children.append subKids
            | none => children.append subKids
          parseTokensAux oracle fuel sub.2.1 (ChessSt.loadFen savedFen) children'
            parentId openingName lastId pending sub.2.2

/-- `parseTokens` as `parseGame` invokes it: fresh engine, empty root
children array, `parentId = null`, id counter from 1. -/
def parseTokens (oracle : Oracle) (tokens : List Token) (openingName : String) :
    MoveForest :=
  (parseTokensAux oracle (tokens.length + 1) tokens ChessSt.start .nil none
    openingName none [] 1).1

/-- The movetext pipeline of `parseGame` (headers absent):
preprocess, tokenize, parse. -/
def parseMovetext (oracle : Oracle) (openingName : String) (movetext : String) :
    MoveForest :=
  parseTokens oracle (tokenize (preprocessPGN movetext)) openingName

/-- The chess.js legality oracle restricted to the positions the concrete
test inputs visit (all listed moves are legal there, and chess.js returns
the SAN unchanged since the inputs are already canonical). -/
def demoOracle : Oracle := fun pos san =>
  match pos, san with
  | [], "e4" => some "e4"
  | ["e4"], "e5" => some "e5"
  | ["e4"], "c5" => some "c5"
  | ["e4", "e5"], "Nf3" => some "Nf3"
  | ["e4", "e5"], "Nc3" => some "Nc3"
  | ["e4", "c5"], "Nf3" => some "Nf3"
  | _, _ => none

/-! ## Observation helpers and invariants -/

/-- The SANs of a sibling array, in order. -/
def childSans (f : MoveForest) : List String := f.toList.map (fun n => n.data.san)

/-- The `isMainline` flags of a sibling array, in order. -/
def childFlags (f : MoveForest) : List Bool := f.toList.map (fun n => n.data.isMainline)

/-- The children array of the `i`-th sibling. -/
def nthKids (f : MoveForest) (i : Nat) : MoveForest :=
  ((f.toList.get? i).map MoveNode.children).getD .nil

/-- Every node in the array has `isMainline = false`. -/
def allNotMainline : MoveForest → Bool
  | .nil => true
  | .cons n t => !n.data.isMainline && allNotMainline t

/-- The weak mainline condition on one sibling group: only the first
element may carry `isMainline = true` (so at most one does). -/
def groupFlagsWeak : MoveForest → Bool
  | .nil => true
  | .cons _ t => allNotMainline t

/-- The strong mainline condition of the specification: a non-empty group
has `isMainline = true` exactly at index 0. -/
def groupFlagsStrong : MoveForest → Bool
  | .nil => true
  | .cons h t => h.data.isMainline && allNotMainline t

mutual
/-- The weak condition for every sibling group inside a node. -/
def nodeGroupsWeak : MoveNode → Bool
  | .mk _ cs => groupFlagsWeak cs && forestGroupsWeakAll cs
def forestGroupsWeakAll : MoveForest → Bool
  | .nil => true
  | .cons n t => nodeGroupsWeak n && forestGroupsWeakAll t
end

mutual
/-- The strong condition for every sibling group inside a node. -/
def nodeGroupsStrong : MoveNode → Bool
  | .mk _ cs => groupFlagsStrong cs && forestGroupsStrongAll cs
def forestGroupsStrongAll : MoveForest → Bool
  | .nil => true
  | .cons n t => nodeGroupsStrong n && forestGroupsStrongAll t
end

/-- The weak mainline invariant over a whole tree. -/
def treeGroupsWeak (t : RepertoireTree) : Bool :=
  groupFlagsWeak t.children && forestGroupsWeakAll t.children

/-- The strong mainline invariant of the specification over a whole tree. -/
def treeGroupsStrong (t : RepertoireTree) : Bool :=
  groupFlagsStrong t.children && forestGroupsStrongAll t.children

/-- `{ rootFen, children: [] }`: the empty repertoire tree. -/
def emptyTree (rootFen : Fen) : RepertoireTree := ⟨rootFen, .nil⟩

/-- Trees reachable from the empty tree by the three structural edit
operations (with arbitrary arguments, including arbitrary generated ids). -/
inductive Reachable : RepertoireTree → Prop where
  | empty (rootFen : Fen) : Reachable (emptyTree rootFen)
  | insert (t : RepertoireTree) (parentId : Option Nat) (san : String) (fen : Fen)
      (moveNumber plyFromRoot newId : Nat) : Reachable t →
      Reachable (insertMove t parentId san fen moveNumber plyFromRoot newId).tree
  | delete (t : RepertoireTree) (nodeId : Nat) : Reachable t →
      Reachable (deleteSubtree t nodeId)
  | promote (t : RepertoireTree) (parent : ParentRef) (childId : Nat) :
      Reachable t → Reachable (promoteVariation t parent childId)

/-! ## Single-path insertion (for the line-extraction property) -/

/-- The per-move arguments of one `insertMove` call. -/
structure InsertSpec where
  san : String
  fen : Fen
  moveNumber : Nat
  plyFromRoot : Nat
deriving DecidableEq, Repr

/-- Insert a sequence of moves along a single path: each insertion's parent
is the previously created node (the first has `parentId = null`), with ids
taken from a fresh counter. -/
def insertPath : RepertoireTree → Option Nat → List InsertSpec → Nat → RepertoireTree
  | t, _, [], _ => t
  | t, p, m :: rest, nid =>
    let r := insertMove t p m.san m.fen m.moveNumber m.plyFromRoot nid
    insertPath r.tree (some r.newNode.data.id) rest (nid + 1)

/-- The single-path forest such an insertion sequence builds. -/
def chainF : Option Nat → Nat → List InsertSpec → MoveForest
  | _, _, [] => .nil
  | p, nid, m :: rest =>
    .cons (.mk
      { id := nid, san := m.san, fen := m.fen, parentId := p,
        comment := "", arrows := [], highlights := [], nags := [],
        isMainline := true, moveNumber := m.moveNumber,
        plyFromRoot := m.plyFromRoot, openingName := "" }
      (chainF (some nid) (nid + 1) rest)) .nil

/-! ## Sibling-SAN distinctness (for the merge idempotence property) -/

/-- No string occurs twice. -/
def noDupStrs : List String → Bool
  | [] => true
  | s :: rest => !(rest.contains s) && noDupStrs rest

mutual
/-- Every sibling group inside the node has pairwise distinct SANs. -/
def distinctSansN : MoveNode → Bool
  | .mk _ cs => noDupStrs (childSans cs) && distinctSansAll cs
def distinctSansAll : MoveForest → Bool
  | .nil => true
  | .cons n t => distinctSansN n && distinctSansAll t
end

/-- Every sibling group of the forest (itself included) has pairwise
distinct SANs. -/
def distinctForest (f : MoveForest) : Bool :=
  noDupStrs (childSans f) && distinctSansAll f

/-! ## Concrete instances used by the counterexamples and witnesses -/

/-- A node with the given id, SAN, flag and children (all other fields at
their `insertMove` defaults). -/
def mkSimple (i : Nat) (s : String) (b : Bool) (cs : MoveForest) : MoveNode :=
  .mk { id := i, san := s, fen := [], parentId := none, comment := "",
        arrows := [], highlights := [], nags := [], isMainline := b,
        moveNumber := 1, plyFromRoot := 1, openingName := "" } cs

/-- Insert `e4` and `d4` as root moves, then delete the (mainline) `e4`:
the surviving sibling group has no `isMainline = true` member. -/
def c1tree : RepertoireTree :=
  deleteSubtree
    (insertMove (insertMove (emptyTree []) none "e4" ["e4"] 1 1 1).tree
      none "d4" ["d4"] 1 1 2).tree 1

/-- Two root siblings that share the SAN `e4`; the second carries a
continuation the first lacks. -/
def c5tree : RepertoireTree :=
  ⟨[], .cons (mkSimple 1 "e4" true .nil)
        (.cons (mkSimple 2 "e4" false (.single (mkSimple 3 "Nf3" true .nil))) .nil)⟩

/-- A root move with three children `e5, c5, c6` (sibling group of size
three under node 10). -/
def c6tree : RepertoireTree :=
  ⟨[], .single (mkSimple 10 "e4" true
        (.cons (mkSimple 11 "e5" true .nil)
          (.cons (mkSimple 12 "c5" false .nil)
            (.cons (mkSimple 13 "c6" false .nil) .nil))))⟩

/-- The moves of a concrete three-ply single-path insertion. -/
def demoSpecs : List InsertSpec :=
  [⟨"e4", ["e4"], 1, 1⟩, ⟨"e5", ["e4", "e5"], 1, 2⟩, ⟨"Nf3", ["e4", "e5", "Nf3"], 2, 3⟩]

/-- The condition under which a movetext splits as `a ++ '\x7b' :: w` with the
marked brace the first unmatched one: every earlier `'\x7b'` has a `'\x7d'`
somewhere after it. -/
def bracesClosed (r : List Char) : Prop :=
  ∀ r₁ r₂, r = r₁ ++ '\x7b' :: r₂ → '\x7d' ∈ r₂

/-! # Theorems -/

/-! ## Basic structural lemmas -/

@[simp] theorem MoveNode.data_mk (d : MoveData) (cs : MoveForest) :
    (MoveNode.mk d cs).data = d := rfl

@[simp] theorem MoveNode.children_mk (d : MoveData) (cs : MoveForest) :
    (MoveNode.mk d cs).children = cs := rfl

@[simp] theorem MoveNode.data_withMainline (n : MoveNode) (b : Bool) :
    (n.withMainline b).data = { n.data with isMainline := b } := by
  cases n; rfl

@[simp] theorem MoveNode.children_withMainline (n : MoveNode) (b : Bool) :
    (n.withMainline b).children = n.children := by
  cases n; rfl

@[simp] theorem MoveNode.data_withChildren (n : MoveNode) (cs : MoveForest) :
    (n.withChildren cs).data = n.data := by
  cases n; rfl

@[simp] theorem MoveNode.children_withChildren (n : MoveNode) (cs : MoveForest) :
    (n.withChildren cs).children = cs := by
  cases n; rfl

@[simp] theorem MoveNode.withChildren_self (n : MoveNode) :
    n.withChildren n.children = n := by
  cases n; rfl

theorem MoveNode.withMainline_self (n : MoveNode) (b : Bool)
    (h : n.data.isMainline = b) : n.withMainline b = n := by
  cases n with
  | mk d cs => simp only [MoveNode.data_mk] at h; simp [MoveNode.withMainline, ← h]

@[simp] theorem MoveForest.toList_ofList (l : List MoveNode) :
    (MoveForest.ofList l).toList = l := by
  induction l with
  | nil => rfl
  | cons n t ih => simp [MoveForest.ofList, MoveForest.toList, ih]

@[simp] theorem MoveForest.ofList_toList : ∀ (f : MoveForest),
    MoveForest.ofList f.toList = f
  | .nil => rfl
  | .cons n t => by simp [MoveForest.ofList, MoveForest.toList, ofList_toList t]

@[simp] theorem MoveForest.toList_append : ∀ (f g : MoveForest),
    (f.append g).toList = f.toList ++ g.toList
  | .nil, g => rfl
  | .cons n t, g => by simp [MoveForest.append, MoveForest.toList, toList_append t g]

@[simp] theorem MoveForest.toList_single (n : MoveNode) :
    (MoveForest.single n).toList = [n] := rfl

theorem MoveForest.isEmpty_iff_nil (f : MoveForest) :
    f.isEmpty = true ↔ f = .nil := by
  cases f <;> simp [MoveForest.isEmpty]

/-! ## Claim C2 — the null-move marker (code behaviour at the failing input)

The preprocessor comment promises to strip a `Z0` marker *and everything
after it in its line*, and the spec requires nothing after the marker to be
attached; but `preprocessPGN` only deletes the `Z0` tokens themselves
(`replace(/\bZ0\b/g, '')`), so `Nc3` remains and is parsed as the mainline
continuation after `e5`. -/

/-- Claim C2: parsing the movetext `1. e4 e5 2. Z0 Nc3 Z0` is claimed to
yield a tree containing only `e4, e5`.  The code instead yields the chain
`e4 → e5 → Nc3`: the move after the first null-move marker *is* attached.
This theorem records the code's actual behaviour at the failing input. -/
theorem C2_null_move_attaches_continuation :
    childSans (parseMovetext demoOracle "" "1. e4 e5 2. Z0 Nc3 Z0") = ["e4"]
    ∧ childSans (nthKids (parseMovetext demoOracle "" "1. e4 e5 2. Z0 Nc3 Z0") 0)
        = ["e5"]
    ∧ childSans (nthKids (nthKids
        (parseMovetext demoOracle "" "1. e4 e5 2. Z0 Nc3 Z0") 0) 0)
        = ["Nc3"] := by
  refine ⟨?_, ?_, ?_⟩ <;> rfl

/-! ## Claim C4 — recursive variation attachment -/

/-- Claim C4: parsing `1. e4 e5 (1... c5 2. Nf3) 2. Nf3` yields a tree in
which the root move `e4` has mainline child `e5`; `e4` has exactly one
additional child, the non-mainline variation root `c5` whose single child
is `Nf3`; and `e5`'s mainline child is `Nf3`. -/
theorem C4_variation_attachment :
    childSans (parseMovetext demoOracle "" "1. e4 e5 (1... c5 2. Nf3) 2. Nf3")
        = ["e4"]
    ∧ childSans (nthKids
        (parseMovetext demoOracle "" "1. e4 e5 (1... c5 2. Nf3) 2. Nf3") 0)
        = ["e5", "c5"]
    ∧ childFlags (nthKids
        (parseMovetext demoOracle "" "1. e4 e5 (1... c5 2. Nf3) 2. Nf3") 0)
        = [true, false]
    ∧ childSans (nthKids (nthKids
        (parseMovetext demoOracle "" "1. e4 e5 (1... c5 2. Nf3) 2. Nf3") 0) 0)
        = ["Nf3"]
    ∧ childFlags (nthKids (nthKids
        (parseMovetext demoOracle "" "1. e4 e5 (1... c5 2. Nf3) 2. Nf3") 0) 0)
        = [true]
    ∧ childSans (nthKids (nthKids
        (parseMovetext demoOracle "" "1. e4 e5 (1... c5 2. Nf3) 2. Nf3") 0) 1)
        = ["Nf3"] := by
  refine ⟨?_, ?_, ?_, ?_, ?_, ?_⟩ <;> rfl

/-! ## Claim C3 — the SM-2 update formulas -/

/-- Claim C3: for integer quality in `[0,5]`, `repetitions ≥ 0`,
`easeFactor ≥ 1.3`, `interval ≥ 0`: the ease always updates to
`max(1.3, ease + (0.1 − (5−q)(0.08 + (5−q)·0.02)))`; on `quality ≥ 3`
repetitions increment and the interval is `1` / `6` /
`round(interval · pre-update ease)` by repetition count; on `quality < 3`
repetitions reset to `0` and the interval is `1` while the ease still
updates; and concretely `sm2(0, 5, 2.0, 30) = (1, 0, 1.3)`. -/
theorem C3_sm2_formulas (q rep ef intv : ℚ)
    (hq : ∃ n : ℕ, q = n ∧ n ≤ 5) (hrep : 0 ≤ rep)
    (hef : (1.3 : ℚ) ≤ ef) (hintv : 0 ≤ intv) :
    (sm2 ⟨q, rep, ef, intv⟩).easeFactor
        = max 1.3 (ef + (0.1 - (5 - q) * (0.08 + (5 - q) * 0.02)))
    ∧ (3 ≤ q →
        (sm2 ⟨q, rep, ef, intv⟩).repetitions = rep + 1
        ∧ (sm2 ⟨q, rep, ef, intv⟩).interval
            = if rep = 0 then 1 else if rep = 1 then 6 else jsRound (intv * ef))
    ∧ (q < 3 →
        (sm2 ⟨q, rep, ef, intv⟩).repetitions = 0
        ∧ (sm2 ⟨q, rep, ef, intv⟩).interval = 1)
    ∧ sm2 ⟨0, 5, 2, 30⟩ = ⟨1, 0, 1.3⟩ := by
  refine ⟨?_, fun h3 => ⟨?_, ?_⟩, fun hlt => ⟨?_, ?_⟩,
    by simp only [sm2]; norm_num [SM2_MIN_EASE_FACTOR, SM2_FIRST_INTERVAL]⟩
  · simp only [sm2, SM2_MIN_EASE_FACTOR]
    rcases lt_or_le (ef + (0.1 - (5 - q) * (0.08 + (5 - q) * 0.02))) (1.3 : ℚ) with h | h
    · split <;> simp_all [max_eq_left_iff, le_of_lt h]
    · split <;> simp_all [max_eq_right_iff, not_lt.2 h]
  · simp [sm2, h3]
  · simp [sm2, h3, SM2_FIRST_INTERVAL, SM2_SECOND_INTERVAL]
  · simp [sm2, not_le.2 hlt]
  · simp [sm2, not_le.2 hlt, SM2_FIRST_INTERVAL]

/-- Witness for C3 at the concrete input `sm2(5, 0, 2.5, 0)`. -/
theorem C3_sm2_formulas_witness :
    (sm2 ⟨5, 0, 2.5, 0⟩).easeFactor
        = max 1.3 (2.5 + (0.1 - (5 - 5) * (0.08 + (5 - 5) * 0.02)))
    ∧ ((3 : ℚ) ≤ 5 →
        (sm2 ⟨5, 0, 2.5, 0⟩).repetitions = 0 + 1
        ∧ (sm2 ⟨5, 0, 2.5, 0⟩).interval
            = if (0 : ℚ) = 0 then 1 else if (0 : ℚ) = 1 then 6 else jsRound (0 * 2.5))
    ∧ ((5 : ℚ) < 3 →
        (sm2 ⟨5, 0, 2.5, 0⟩).repetitions = 0
        ∧ (sm2 ⟨5, 0, 2.5, 0⟩).interval = 1)
    ∧ sm2 ⟨0, 5, 2, 30⟩ = ⟨1, 0, 1.3⟩ :=
  C3_sm2_formulas 5 0 2.5 0 ⟨5, by norm_num, by norm_num⟩ (by norm_num)
    (by norm_num) (by norm_num)

/-! ## Lookup/update correspondence lemmas -/

/-- A missing id makes `removeFromChildren` the identity. -/
theorem remove_noop : ∀ (f : MoveForest) (i : Nat),
    findNodeInForest f i = none → removeFromChildren f i = f
  | .nil, _, _ => rfl
  | .cons (.mk d cs) t, i, h => by
    simp only [findNodeInForest, findNodeInSubtree] at h
    by_cases hid : d.id = i
    · simp [hid] at h
    · simp only [if_neg hid] at h
      rcases hcs : findNodeInForest cs i with _ | q
      · rcases hcs' : findNodeInForest t i with _ | q'
        · simp only [removeFromChildren, if_neg hid,
            remove_noop cs i hcs, remove_noop t i hcs']
        · rw [hcs, hcs'] at h; simp at h
      · rw [hcs] at h; simp at h

/-- A missing id makes `updateFirstInForest` return `none`. -/
theorem update_none : ∀ (f : MoveForest) (i : Nat) (g : MoveNode → MoveNode),
    findNodeInForest f i = none → updateFirstInForest i g f = none
  | .nil, _, _, _ => rfl
  | .cons (.mk d cs) t, i, g, h => by
    simp only [findNodeInForest, findNodeInSubtree] at h
    by_cases hid : d.id = i
    · simp [hid] at h
    · simp only [if_neg hid] at h
      rcases hcs : findNodeInForest cs i with _ | q
      · rcases hcs' : findNodeInForest t i with _ | q'
        · simp only [updateFirstInForest, updateFirstInSubtree, if_neg hid,
            update_none cs i g hcs, update_none t i g hcs']
        · rw [hcs, hcs'] at h; simp at h
      · rw [hcs] at h; simp at h

/-- A missing id makes `pushChildInForest` return `none`. -/
theorem push_none : ∀ (f : MoveForest) (i : Nat) (c : MoveNode),
    findNodeInForest f i = none → pushChildInForest i c f = none
  | .nil, _, _, _ => rfl
  | .cons (.mk d cs) t, i, c, h => by
    simp only [findNodeInForest, findNodeInSubtree] at h
    by_cases hid : d.id = i
    · simp [hid] at h
    · simp only [if_neg hid] at h
      rcases hcs : findNodeInForest cs i with _ | q
      · rcases hcs' : findNodeInForest t i with _ | q'
        · simp only [pushChildInForest, pushChildInSubtree, if_neg hid,
            push_none cs i c hcs, push_none t i c hcs']
        · rw [hcs, hcs'] at h; simp at h
      · rw [hcs] at h; simp at h

/-- Updating the found node with a function that fixes it leaves the forest
unchanged (and the update does succeed). -/
theorem update_self : ∀ (f : MoveForest) (i : Nat) (g : MoveNode → MoveNode)
    (p : MoveNode), findNodeInForest f i = some p → g p = p →
    updateFirstInForest i g f = some f
  | .cons (.mk d cs) t, i, g, p, h, hg => by
    simp only [findNodeInForest, findNodeInSubtree] at h
    simp only [updateFirstInForest, updateFirstInSubtree]
    by_cases hid : d.id = i
    · simp only [if_pos hid] at h ⊢
      obtain rfl : MoveNode.mk d cs = p := by simpa using h
      rw [hg]
    · simp only [if_neg hid] at h ⊢
      rcases hcs : findNodeInForest cs i with _ | q
      · rw [hcs] at h
        simp only at h
        rw [update_none cs i g hcs]
        rw [update_self t i g p h hg]
      · rw [hcs] at h
        simp only [Option.some.injEq] at h
        subst h
        rw [update_self cs i g q hcs hg]

/-- A missing child id makes the promote surgery the identity. -/
theorem promoteInList_noop (cs : MoveForest) (cid : Nat)
    (h : cs.toList.findIdx? (fun c => c.data.id = cid) = none) :
    promoteInList cs cid = cs := by
  simp [promoteInList, h]

/-! ## Claim C7 — delete/promote on a missing target are no-ops -/

/-- Claim C7: for every tree and every `nodeId` (respectively
`parentId`/`childId` pair) that does not identify an existing node,
`deleteSubtree` and `promoteVariation` return the input tree unchanged:
a missing delete target, a missing promote parent (root sentinel included),
and a found parent without the named child are all no-ops. -/
theorem C7_edit_miss_noop (t : RepertoireTree) (nid pid cid : Nat) :
    (findNode t nid = none → deleteSubtree t nid = t)
    ∧ (findNode t pid = none → promoteVariation t (.node pid) cid = t)
    ∧ (∀ p, findNode t pid = some p →
        p.children.toList.findIdx? (fun c => c.data.id = cid) = none →
        promoteVariation t (.node pid) cid = t)
    ∧ (t.children.toList.findIdx? (fun c => c.data.id = cid) = none →
        promoteVariation t .rootSentinel cid = t) := by
  refine ⟨fun h => ?_, fun h => ?_, fun p hp hidx => ?_, fun h => ?_⟩
  · show { t with children := removeFromChildren t.children nid } = t
    rw [remove_noop t.children nid h]
  · show (match updateFirstInForest pid _ t.children with
      | some cs => { t with children := cs } | none => t) = t
    rw [update_none t.children pid _ h]
  · show (match updateFirstInForest pid
        (fun p => p.withChildren (promoteInList p.children cid)) t.children with
      | some cs => { t with children := cs } | none => t) = t
    rw [update_self t.children pid _ p hp
      (by rw [promoteInList_noop p.children cid hidx, MoveNode.withChildren_self])]
  · show { t with children := promoteInList t.children cid } = t
    rw [promoteInList_noop t.children cid h]

/-- Witness for C7 on a concrete tree with missing ids. -/
theorem C7_edit_miss_noop_witness :
    deleteSubtree c6tree 99 = c6tree
    ∧ promoteVariation c6tree (.node 99) 12 = c6tree
    ∧ promoteVariation c6tree (.node 10) 99 = c6tree
    ∧ promoteVariation c6tree .rootSentinel 99 = c6tree :=
  ⟨(C7_edit_miss_noop c6tree 99 99 12).1 (by decide),
   (C7_edit_miss_noop c6tree 99 99 12).2.1 (by decide),
   (C7_edit_miss_noop c6tree 99 10 99).2.2.1
     (mkSimple 10 "e4" true
       (.cons (mkSimple 11 "e5" true .nil)
         (.cons (mkSimple 12 "c5" false .nil)
           (.cons (mkSimple 13 "c6" false .nil) .nil))))
     (by decide) (by decide),
   (C7_edit_miss_noop c6tree 99 10 99).2.2.2 (by decide)⟩

/-! ## Claim C10 — insert under a missing parent returns a detached node -/

/-- Claim C10: for every tree and non-null `parentId` naming no node in the
tree, `insertMove` returns the tree unchanged together with a `newNode`
whose `parentId` field names the missing parent but which is contained
nowhere in the returned tree, rather than failing or signalling the miss
(`newId` fresh, as `generateId()` guarantees). -/
theorem C10_insert_missing_parent_detached (t : RepertoireTree) (pid : Nat)
    (san : String) (fen : Fen) (mn ply newId : Nat)
    (hp : findNode t pid = none) (hfresh : findNode t newId = none) :
    (insertMove t (some pid) san fen mn ply newId).tree = t
    ∧ (insertMove t (some pid) san fen mn ply newId).newNode.data.parentId
        = some pid
    ∧ findNode (insertMove t (some pid) san fen mn ply newId).tree
        ((insertMove t (some pid) san fen mn ply newId).newNode.data.id)
        = none := by
  have hpush := push_none t.children pid
    (freshNode newId san fen (some pid) mn ply) hp
  simp only [freshNode] at hpush
  have hfresh' : findNodeInForest t.children newId = none := hfresh
  refine ⟨?_, ?_, ?_⟩ <;> simp [insertMove, freshNode, hpush, findNode, hfresh']

/-- Witness for C10 at a concrete tree and missing parent id. -/
theorem C10_insert_missing_parent_detached_witness :
    (insertMove c6tree (some 99) "d4" ["d4"] 1 1 77).tree = c6tree
    ∧ (insertMove c6tree (some 99) "d4" ["d4"] 1 1 77).newNode.data.parentId
        = some 99
    ∧ findNode (insertMove c6tree (some 99) "d4" ["d4"] 1 1 77).tree
        ((insertMove c6tree (some 99) "d4" ["d4"] 1 1 77).newNode.data.id)
        = none :=
  C10_insert_missing_parent_detached c6tree 99 "d4" ["d4"] 1 1 77
    (by decide) (by decide)

/-! ## Promotion lemmas -/

@[simp] theorem MoveNode.withMainline_withMainline (n : MoveNode) (a b : Bool) :
    (n.withMainline a).withMainline b = n.withMainline b := by
  cases n; rfl

@[simp] theorem MoveNode.withChildren_withChildren (n : MoveNode)
    (a b : MoveForest) : (n.withChildren a).withChildren b = n.withChildren b := by
  cases n; rfl

/-- Updating the first node with `g₁` succeeds when the id is present, and a
second update with a `g₂` that undoes `g₁` on the found node restores the
forest.  (`g₁` must preserve the updated node's id, as the promotion
update does.) -/
theorem update_double : ∀ (f : MoveForest) (i : Nat)
    (g₁ g₂ : MoveNode → MoveNode) (p : MoveNode),
    findNodeInForest f i = some p → (∀ n, (g₁ n).data.id = n.data.id) →
    g₂ (g₁ p) = p →
    ∃ f₁, updateFirstInForest i g₁ f = some f₁
      ∧ updateFirstInForest i g₂ f₁ = some f
  | .cons (.mk d cs) t, i, g₁, g₂, p, h, hid, hundo => by
    simp only [findNodeInForest, findNodeInSubtree] at h
    by_cases hd : d.id = i
    · simp only [if_pos hd] at h
      obtain rfl : MoveNode.mk d cs = p := by simpa using h
      refine ⟨.cons (g₁ (.mk d cs)) t, ?_, ?_⟩
      · simp only [updateFirstInForest, updateFirstInSubtree, if_pos hd]
      · have hgid : (g₁ (MoveNode.mk d cs)).data.id = i := by rw [hid]; exact hd
        rcases hg : g₁ (MoveNode.mk d cs) with ⟨d', cs'⟩
        rw [hg] at hgid hundo
        simp only [MoveNode.data_mk] at hgid
        simp only [updateFirstInForest, updateFirstInSubtree, if_pos hgid, hundo]
    · simp only [if_neg hd] at h
      rcases hcs : findNodeInForest cs i with _ | q
      · rw [hcs] at h
        simp only at h
        obtain ⟨t₁, ht₁, ht₂⟩ := update_double t i g₁ g₂ p h hid hundo
        refine ⟨.cons (.mk d cs) t₁, ?_, ?_⟩
        · simp only [updateFirstInForest, updateFirstInSubtree, if_neg hd,
            update_none cs i g₁ hcs, ht₁]
        · simp only [updateFirstInForest, updateFirstInSubtree, if_neg hd,
            update_none cs i g₂ hcs, ht₂]
      · rw [hcs] at h
        simp only [Option.some.injEq] at h
        subst h
        obtain ⟨cs₁, hc₁, hc₂⟩ := update_double cs i g₁ g₂ q hcs hid hundo
        refine ⟨.cons (.mk d cs₁) t, ?_, ?_⟩
        · simp only [updateFirstInForest, updateFirstInSubtree, if_neg hd, hc₁]
        · simp only [updateFirstInForest, updateFirstInSubtree, if_neg hd, hc₂]

/-- Promoting the sibling at index 1 and then promoting the original head
back restores the sibling array, provided the original flags satisfied the
mainline invariant. -/
theorem promoteInList_swap (c0 c1 : MoveNode) (rest : MoveForest)
    (h0 : c0.data.isMainline = true) (h1 : c1.data.isMainline = false)
    (hne : c0.data.id ≠ c1.data.id) :
    promoteInList (promoteInList (.cons c0 (.cons c1 rest)) c1.data.id)
      c0.data.id = .cons c0 (.cons c1 rest) := by
  have hstep1 : promoteInList (.cons c0 (.cons c1 rest)) c1.data.id
      = .cons (c1.withMainline true) (.cons (c0.withMainline false) rest) := by
    simp [promoteInList, MoveForest.toList, List.findIdx?_cons, hne,
      List.eraseIdx_cons_succ, List.eraseIdx_cons_zero, MoveForest.ofList]
  rw [hstep1]
  have hstep2 : promoteInList
      (.cons (c1.withMainline true) (.cons (c0.withMainline false) rest))
      c0.data.id
      = .cons ((c0.withMainline false).withMainline true)
          (.cons ((c1.withMainline true).withMainline false) rest) := by
    simp [promoteInList, MoveForest.toList, List.findIdx?_cons, Ne.symm hne,
      List.eraseIdx_cons_succ, List.eraseIdx_cons_zero, MoveForest.ofList]
  rw [hstep2]
  simp only [MoveNode.withMainline_withMainline]
  rw [MoveNode.withMainline_self c0 true h0, MoveNode.withMainline_self c1 false h1]

/-! ## Claim C6 — double promotion -/

/-- Claim C6 counterexample: with sibling group `[e5, c5, c6]` under the
root move, promoting `c6` (index 2) and then promoting `e5` back yields the
ordering `[e5, c6, c5]`, not the original `[e5, c5, c6]`: the claim that
double promotion restores the original sibling ordering is false. -/
theorem C6_counterexample :
    promoteVariation (promoteVariation c6tree (.node 10) 13) (.node 10) 11
        ≠ c6tree
    ∧ childSans (nthKids (promoteVariation
        (promoteVariation c6tree (.node 10) 13) (.node 10) 11).children 0)
        = ["e5", "c6", "c5"]
    ∧ childSans (nthKids c6tree.children 0) = ["e5", "c5", "c6"] := by
  refine ⟨by decide, by decide, by decide⟩

/-- Claim C6 (amended): promoting the variation at index 1 of a sibling
group and then promoting the original mainline child back restores the
original sibling ordering and flags — both for a root-sentinel group and
for a found parent node (the original group must satisfy the mainline flag
invariant, and the two children must have distinct ids).  For a promoted
child at index ≥ 2 the double promotion instead parks it at index 1, as the
counterexample shows. -/
theorem C6_double_promotion_amended (t : RepertoireTree) (pid : Nat)
    (p c0 c1 : MoveNode) (rest : MoveForest)
    (h0 : c0.data.isMainline = true) (h1 : c1.data.isMainline = false)
    (hne : c0.data.id ≠ c1.data.id) :
    (t.children = .cons c0 (.cons c1 rest) →
      promoteVariation (promoteVariation t .rootSentinel c1.data.id)
        .rootSentinel c0.data.id = t)
    ∧ (findNode t pid = some p → p.children = .cons c0 (.cons c1 rest) →
      promoteVariation (promoteVariation t (.node pid) c1.data.id)
        (.node pid) c0.data.id = t) := by
  constructor
  · intro hch
    have key : promoteInList (promoteInList t.children c1.data.id) c0.data.id
        = t.children := by
      rw [hch, promoteInList_swap c0 c1 rest h0 h1 hne]
    show ({ t with children := promoteInList (promoteInList t.children c1.data.id) c0.data.id } : RepertoireTree) = t
    rw [key]
  · intro hp hch
    have hundo : (fun n => n.withChildren (promoteInList n.children c0.data.id))
        ((fun n => n.withChildren (promoteInList n.children c1.data.id)) p) = p := by
      simp only [MoveNode.children_withChildren,
        MoveNode.withChildren_withChildren]
      rw [hch, promoteInList_swap c0 c1 rest h0 h1 hne, ← hch,
        MoveNode.withChildren_self]
    obtain ⟨f₁, hf₁, hf₂⟩ := update_double t.children pid
      (fun n => n.withChildren (promoteInList n.children c1.data.id))
      (fun n => n.withChildren (promoteInList n.children c0.data.id))
      p hp (fun n => by simp) hundo
    have hstep1 : promoteVariation t (.node pid) c1.data.id
        = { t with children := f₁ } := by
      show (match updateFirstInForest pid
          (fun n => n.withChildren (promoteInList n.children c1.data.id))
          t.children with
        | some cs => { t with children := cs } | none => t) = { t with children := f₁ }
      rw [hf₁]
    rw [hstep1]
    show (match updateFirstInForest pid
        (fun n => n.withChildren (promoteInList n.children c0.data.id)) f₁ with
      | some cs => ({ rootFen := t.rootFen, children := cs } : RepertoireTree)
      | none => { rootFen := t.rootFen, children := f₁ }) = t
    rw [hf₂]

/-- Witness for the amended C6: the root-sentinel case on `c5tree` (two
root siblings) and the node case on `c6tree` (group `[e5, c5, c6]`,
promoting `c5` at index 1 and then `e5` back). -/
theorem C6_double_promotion_amended_witness :
    promoteVariation (promoteVariation c5tree .rootSentinel 2) .rootSentinel 1
        = c5tree
    ∧ promoteVariation (promoteVariation c6tree (.node 10) 12) (.node 10) 11
        = c6tree :=
  ⟨(C6_double_promotion_amended c5tree 0 (mkSimple 1 "e4" true .nil)
      (mkSimple 1 "e4" true .nil)
      (mkSimple 2 "e4" false (.single (mkSimple 3 "Nf3" true .nil))) .nil
      (by decide) (by decide) (by decide)).1 (by decide),
   (C6_double_promotion_amended c6tree 10
      (mkSimple 10 "e4" true
        (.cons (mkSimple 11 "e5" true .nil)
          (.cons (mkSimple 12 "c5" false .nil)
            (.cons (mkSimple 13 "c6" false .nil) .nil))))
      (mkSimple 11 "e5" true .nil) (mkSimple 12 "c5" false .nil)
      (.single (mkSimple 13 "c6" false .nil))
      (by decide) (by decide) (by decide)).2 (by decide) (by decide)⟩

/-! ## Merge lemmas -/

/-- With pairwise-distinct sibling SANs, a sibling finds itself. -/
theorem findBySan_self : ∀ (f : MoveForest) (x : MoveNode),
    noDupStrs (childSans f) = true → x ∈ f.toList →
    findBySan x.data.san f = some x
  | .cons n t, x, hnd, hx => by
    simp only [childSans, MoveForest.toList, List.map_cons, noDupStrs,
      Bool.and_eq_true, Bool.not_eq_true'] at hnd
    rcases List.mem_cons.1 hx with rfl | hxt
    · simp [findBySan]
    · have hne : ¬ n.data.san = x.data.san := by
        intro hsan
        have hmem : x.data.san ∈ (t.toList.map (fun n => n.data.san)) :=
          List.mem_map_of_mem _ hxt
        rw [← hsan] at hmem
        have hc : (t.toList.map (fun n => n.data.san)).contains n.data.san = true :=
          List.elem_eq_true_of_mem hmem
        rw [hc] at hnd
        exact absurd hnd.1 (by simp)
      simp only [findBySan, if_neg hne]
      exact findBySan_self t x hnd.2 hxt

/-- Replacing the found sibling by itself changes nothing. -/
theorem replaceBySan_self : ∀ (f : MoveForest) (s : String) (x : MoveNode),
    findBySan s f = some x → replaceBySan s x f = f
  | .cons n t, s, x, h => by
    simp only [findBySan] at h
    by_cases hs : n.data.san = s
    · simp only [if_pos hs] at h
      simp only [Option.some.injEq] at h
      subst h
      simp [replaceBySan, if_pos hs]
    · simp only [if_neg hs] at h
      simp [replaceBySan, if_neg hs, replaceBySan_self t s x h]

/-- The fill-in step is the identity when both sides are the same node. -/
theorem fillFrom_self (n : MoveNode) : fillFrom n n.data = n := by
  cases n with
  | mk d cs => simp [fillFrom]

/-- Folding a batch of siblings into `f` when each of them finds itself in
`f` and self-merges its own children leaves `f` unchanged. -/
theorem mergeLoop_fix : ∀ (g f : MoveForest),
    (∀ x ∈ g.toList, findBySan x.data.san f = some x
      ∧ mergeChildren x.children x.children = x.children) →
    mergeChildren f g = f
  | .nil, f, _ => rfl
  | .cons (.mk dImp kidsImp) tl, f, h => by
    obtain ⟨hfind, hkids⟩ :=
      h (.mk dImp kidsImp) (List.mem_cons_self _ _)
    simp only [MoveNode.data_mk] at hfind
    simp only [MoveNode.children_mk] at hkids
    show (let merged :=
        match findBySan dImp.san f with
        | none => f.append (.single ((MoveNode.mk dImp kidsImp).withMainline false))
        | some m =>
          replaceBySan dImp.san
            (fillFrom (m.withChildren (mergeChildren m.children kidsImp)) dImp) f
      mergeChildren merged tl) = f
    rw [hfind]
    simp only
    have hx : (MoveNode.mk dImp kidsImp).children = kidsImp := rfl
    rw [hx, hkids]
    have hwc : (MoveNode.mk dImp kidsImp).withChildren kidsImp
        = MoveNode.mk dImp kidsImp := rfl
    rw [hwc]
    have : fillFrom (MoveNode.mk dImp kidsImp) dImp = MoveNode.mk dImp kidsImp :=
      fillFrom_self (.mk dImp kidsImp)
    rw [this, replaceBySan_self f dImp.san (.mk dImp kidsImp) hfind]
    exact mergeLoop_fix tl f (fun x hx => h x (List.mem_cons_of_mem _ hx))

mutual
/-- Self-merge of a node's children is the identity under SAN
distinctness. -/
theorem mergeSelf_node : ∀ (n : MoveNode), distinctSansN n = true →
    mergeChildren n.children n.children = n.children
  | .mk d cs, h => by
    simp only [distinctSansN, Bool.and_eq_true] at h
    show mergeChildren cs cs = cs
    exact mergeLoop_fix cs cs (fun x hx =>
      ⟨findBySan_self cs x h.1 hx, mergeSelf_members cs h.2 x hx⟩)
/-- Self-merge is the identity for the children of every member. -/
theorem mergeSelf_members : ∀ (f : MoveForest), distinctSansAll f = true →
    ∀ x ∈ f.toList, mergeChildren x.children x.children = x.children
  | .cons n t, h, x, hx => by
    simp only [distinctSansAll, Bool.and_eq_true] at h
    rcases List.mem_cons.1 hx with rfl | hxt
    · exact mergeSelf_node x h.1
    · exact mergeSelf_members t h.2 x hxt
end

/-! ## Claim C5 — merging a tree with itself -/

/-- Claim C5 counterexample: with two root siblings both labelled `e4`,
`mergeTrees(T, T)` matches the second `e4` against the *first* one and
grafts its `Nf3` continuation there — the result is not structurally
equivalent to `T` (a variation was added under the first sibling). -/
theorem C5_counterexample :
    mergeTrees c5tree c5tree ≠ c5tree
    ∧ childSans (nthKids (mergeTrees c5tree c5tree).children 0) = ["Nf3"]
    ∧ childSans (nthKids c5tree.children 0) = [] := by
  refine ⟨by decide, by decide, by decide⟩

/-- Claim C5 (amended): for every tree whose sibling groups all have
pairwise-distinct notations (SANs), `mergeTrees(T, T) = T` — the self-merge
duplicates no sibling and adds no variation.  Duplicate sibling SANs break
the claim, as the counterexample shows. -/
theorem C5_merge_self_amended (t : RepertoireTree)
    (h : distinctForest t.children = true) : mergeTrees t t = t := by
  simp only [distinctForest, Bool.and_eq_true] at h
  show ({ t with children := mergeChildren t.children t.children } : RepertoireTree) = t
  rw [mergeLoop_fix t.children t.children (fun x hx =>
    ⟨findBySan_self t.children x h.1 hx, mergeSelf_members t.children h.2 x hx⟩)]

/-- Witness for the amended C5 on a concrete distinct-SAN tree. -/
theorem C5_merge_self_amended_witness : mergeTrees c6tree c6tree = c6tree :=
  C5_merge_self_amended c6tree (by decide)

/-! ## Mainline-invariant preservation lemmas -/

theorem allNotMainline_append : ∀ (f g : MoveForest),
    allNotMainline (f.append g) = (allNotMainline f && allNotMainline g)
  | .nil, g => rfl
  | .cons n t, g => by
    simp [MoveForest.append, allNotMainline, allNotMainline_append t g,
      Bool.and_assoc]

theorem forestGroupsWeakAll_append : ∀ (f g : MoveForest),
    forestGroupsWeakAll (f.append g)
      = (forestGroupsWeakAll f && forestGroupsWeakAll g)
  | .nil, g => rfl
  | .cons n t, g => by
    simp [MoveForest.append, forestGroupsWeakAll, forestGroupsWeakAll_append t g,
      Bool.and_assoc]

theorem groupFlagsWeak_of_allNot : ∀ (f : MoveForest),
    allNotMainline f = true → groupFlagsWeak f = true
  | .nil, _ => rfl
  | .cons n t, h => by
    simp only [allNotMainline, Bool.and_eq_true] at h
    simpa [groupFlagsWeak] using h.2

theorem nodeGroupsWeak_of_nil_children (n : MoveNode) (h : n.children = .nil) :
    nodeGroupsWeak n = true := by
  cases n with
  | mk d cs =>
    simp only [MoveNode.children_mk] at h
    subst h
    rfl

@[simp] theorem nodeGroupsWeak_withMainline (n : MoveNode) (b : Bool) :
    nodeGroupsWeak (n.withMainline b) = nodeGroupsWeak n := by
  cases n; rfl

theorem allNotMainline_toList : ∀ (f : MoveForest),
    allNotMainline f = f.toList.all (fun n => !n.data.isMainline)
  | .nil => rfl
  | .cons n t => by
    simp [allNotMainline, MoveForest.toList, allNotMainline_toList t]

theorem forestGroupsWeakAll_toList : ∀ (f : MoveForest),
    forestGroupsWeakAll f = f.toList.all nodeGroupsWeak
  | .nil => rfl
  | .cons n t => by
    simp [forestGroupsWeakAll, MoveForest.toList, forestGroupsWeakAll_toList t]

/-- Appending one child whose flag is `isEmpty` of the group preserves the
weak group condition. -/
theorem groupFlagsWeak_append_one (f : MoveForest) (y : MoveNode)
    (hg : groupFlagsWeak f = true)
    (hy : y.data.isMainline = f.isEmpty) :
    groupFlagsWeak (f.append (.single y)) = true := by
  cases f with
  | nil => simp [MoveForest.append, MoveForest.single, groupFlagsWeak, allNotMainline]
  | cons n t =>
    simp only [MoveForest.isEmpty] at hy
    simp only [groupFlagsWeak] at hg
    simp [MoveForest.append, MoveForest.single, groupFlagsWeak,
      allNotMainline_append, allNotMainline, hg, hy]

mutual
/-- `pushChildInSubtree` preserves the weak invariant and never changes the
scalar data of existing nodes. -/
theorem pushW_node : ∀ (n : MoveNode) (i : Nat) (c : MoveNode)
    (pr : MoveNode × Bool), pushChildInSubtree i c n = some pr →
    c.children = .nil →
    pr.1.data = n.data
    ∧ (nodeGroupsWeak n = true → nodeGroupsWeak pr.1 = true)
  | .mk d cs, i, c, pr, h, hc => by
    simp only [pushChildInSubtree] at h
    by_cases hd : d.id = i
    · rw [if_pos hd] at h
      simp only [Option.some.injEq] at h
      subst h
      refine ⟨rfl, fun hn => ?_⟩
      simp only [nodeGroupsWeak, Bool.and_eq_true] at hn ⊢
      refine ⟨groupFlagsWeak_append_one cs (c.withMainline cs.isEmpty) hn.1
        (by simp), ?_⟩
      rw [forestGroupsWeakAll_append]
      simp only [Bool.and_eq_true]
      refine ⟨hn.2, ?_⟩
      show forestGroupsWeakAll (.cons (c.withMainline cs.isEmpty) .nil) = true
      simp only [forestGroupsWeakAll, Bool.and_eq_true]
      exact ⟨nodeGroupsWeak_of_nil_children _ (by simp [hc]), trivial⟩
    · rw [if_neg hd] at h
      rcases hcs : pushChildInForest i c cs with _ | q
      · rw [hcs] at h; simp at h
      · rw [hcs] at h
        simp only [Option.some.injEq] at h
        subst h
        obtain ⟨ha, hg, hall⟩ := pushW_forest cs i c q hcs hc
        refine ⟨rfl, fun hn => ?_⟩
        simp only [nodeGroupsWeak, Bool.and_eq_true] at hn ⊢
        exact ⟨by rw [hg]; exact hn.1, hall hn.2⟩
/-- `pushChildInForest` preserves the weak invariant of the group and of
every subtree. -/
theorem pushW_forest : ∀ (f : MoveForest) (i : Nat) (c : MoveNode)
    (pr : MoveForest × Bool), pushChildInForest i c f = some pr →
    c.children = .nil →
    allNotMainline pr.1 = allNotMainline f
    ∧ groupFlagsWeak pr.1 = groupFlagsWeak f
    ∧ (forestGroupsWeakAll f = true → forestGroupsWeakAll pr.1 = true)
  | .cons n t, i, c, pr, h, hc => by
    simp only [pushChildInForest] at h
    rcases hn : pushChildInSubtree i c n with _ | q
    · rw [hn] at h
      rcases ht : pushChildInForest i c t with _ | q'
      · rw [ht] at h; simp at h
      · rw [ht] at h
        simp only [Option.some.injEq] at h
        subst h
        obtain ⟨ha, hg, hall⟩ := pushW_forest t i c q' ht hc
        refine ⟨?_, ?_, ?_⟩
        · simp [allNotMainline, ha]
        · simp [groupFlagsWeak, ha]
        · intro hf
          simp only [forestGroupsWeakAll, Bool.and_eq_true] at hf ⊢
          exact ⟨hf.1, hall hf.2⟩
    · rw [hn] at h
      simp only [Option.some.injEq] at h
      subst h
      obtain ⟨hdata, hweak⟩ := pushW_node n i c q hn hc
      refine ⟨?_, ?_, ?_⟩
      · simp [allNotMainline, hdata]
      · simp [groupFlagsWeak]
      · intro hf
        simp only [forestGroupsWeakAll, Bool.and_eq_true] at hf ⊢
        exact ⟨hweak hf.1, hf.2⟩
end

/-- `removeFromChildren` preserves the weak invariant. -/
theorem removeW : ∀ (f : MoveForest) (i : Nat),
    (allNotMainline f = true → allNotMainline (removeFromChildren f i) = true)
    ∧ (groupFlagsWeak f = true → groupFlagsWeak (removeFromChildren f i) = true)
    ∧ (forestGroupsWeakAll f = true →
        forestGroupsWeakAll (removeFromChildren f i) = true)
  | .nil, _ => ⟨fun _ => rfl, fun _ => rfl, fun _ => rfl⟩
  | .cons (.mk d cs) t, i => by
    obtain ⟨hat, hgt, hft⟩ := removeW t i
    obtain ⟨hac, hgc, hfc⟩ := removeW cs i
    refine ⟨fun h => ?_, fun h => ?_, fun h => ?_⟩
    · simp only [allNotMainline, Bool.and_eq_true] at h
      simp only [removeFromChildren]
      split
      · exact hat h.2
      · simp only [allNotMainline, Bool.and_eq_true]
        exact ⟨h.1, hat h.2⟩
    · simp only [groupFlagsWeak] at h
      simp only [removeFromChildren]
      split
      · exact groupFlagsWeak_of_allNot _ (hat h)
      · simpa [groupFlagsWeak] using hat h
    · simp only [forestGroupsWeakAll, Bool.and_eq_true] at h
      simp only [removeFromChildren]
      split
      · exact hft h.2
      · simp only [forestGroupsWeakAll, Bool.and_eq_true]
        refine ⟨?_, hft h.2⟩
        have hn := h.1
        simp only [nodeGroupsWeak, Bool.and_eq_true] at hn ⊢
        exact ⟨hgc hn.1, hfc hn.2⟩

/-- The promote surgery preserves the weak invariant of a sibling group. -/
theorem promoteW : ∀ (cs : MoveForest) (cid : Nat),
    groupFlagsWeak cs = true → forestGroupsWeakAll cs = true →
    groupFlagsWeak (promoteInList cs cid) = true
    ∧ forestGroupsWeakAll (promoteInList cs cid) = true
  | .nil, cid, hg, ha => ⟨hg, ha⟩
  | .cons n t, cid, hg, ha => by
    simp only [promoteInList]
    rcases hidx : (MoveForest.cons n t).toList.findIdx?
        (fun c => c.data.id = cid) with _ | idx
    · simp only [hidx]
      exact ⟨hg, ha⟩
    · simp only [hidx]
      by_cases h0 : idx = 0
      · simp only [if_pos h0]
        exact ⟨hg, ha⟩
      · simp only [if_neg h0]
        obtain ⟨k, rfl⟩ := Nat.exists_eq_succ_of_ne_zero h0
        rcases hget : (MoveForest.cons n t).toList.get? (k + 1) with _ | promoted
        · simp only [hget]
          exact ⟨hg, ha⟩
        · have herase : (MoveForest.cons n t).toList.eraseIdx (k + 1)
              = n :: t.toList.eraseIdx k := by
            simp [MoveForest.toList, List.eraseIdx_cons_succ]
          simp only [hget, herase]
          have hpm : promoted ∈ t.toList := by
            have : (MoveForest.cons n t).toList.get? (k + 1) = t.toList.get? k := by
              simp [MoveForest.toList]
            rw [this] at hget
            exact List.get?_mem hget
          have hsub : ∀ x ∈ t.toList.eraseIdx k, x ∈ t.toList :=
            fun x hx => (List.eraseIdx_sublist t.toList k).subset hx
          have hat : ∀ x ∈ t.toList, !x.data.isMainline := by
            have := hg
            simp only [groupFlagsWeak, allNotMainline_toList,
              List.all_eq_true] at this
            exact this
          have hnw : ∀ x ∈ (MoveForest.cons n t).toList, nodeGroupsWeak x = true := by
            have := ha
            simp only [forestGroupsWeakAll_toList, List.all_eq_true] at this
            exact this
          constructor
          · show allNotMainline (.cons (n.withMainline false)
              (MoveForest.ofList (t.toList.eraseIdx k))) = true
            simp only [allNotMainline_toList, MoveForest.toList,
              MoveForest.toList_ofList, List.all_cons, Bool.and_eq_true,
              MoveNode.data_withMainline, List.all_eq_true]
            exact ⟨by simp, fun x hx => hsub x hx |> hat x⟩
          · simp only [forestGroupsWeakAll_toList, MoveForest.toList,
              MoveForest.toList_ofList, List.all_cons, Bool.and_eq_true,
              nodeGroupsWeak_withMainline, List.all_eq_true]
            refine ⟨hnw promoted (List.mem_cons_of_mem _ hpm),
              hnw n (List.mem_cons_self _ _), fun x hx => ?_⟩
            exact hnw x (List.mem_cons_of_mem _ (hsub x hx))

mutual
/-- `updateFirstInSubtree` with a flag-preserving, invariant-preserving
function preserves the weak invariant. -/
theorem updW_node : ∀ (n : MoveNode) (i : Nat) (g : MoveNode → MoveNode)
    (n' : MoveNode), updateFirstInSubtree i g n = some n' →
    (∀ m, nodeGroupsWeak m = true → nodeGroupsWeak (g m) = true) →
    (∀ m, (g m).data.isMainline = m.data.isMainline) →
    n'.data.isMainline = n.data.isMainline
    ∧ (nodeGroupsWeak n = true → nodeGroupsWeak n' = true)
  | .mk d cs, i, g, n', h, hpres, hflag => by
    simp only [updateFirstInSubtree] at h
    by_cases hd : d.id = i
    · rw [if_pos hd] at h
      simp only [Option.some.injEq] at h
      subst h
      exact ⟨by simpa using hflag (.mk d cs), hpres (.mk d cs)⟩
    · rw [if_neg hd] at h
      rcases hcs : updateFirstInForest i g cs with _ | cs'
      · rw [hcs] at h; simp at h
      · rw [hcs] at h
        simp only [Option.some.injEq] at h
        subst h
        obtain ⟨ha, hgw, hall⟩ := updW_forest cs i g cs' hcs hpres hflag
        refine ⟨rfl, fun hn => ?_⟩
        simp only [nodeGroupsWeak, Bool.and_eq_true] at hn ⊢
        exact ⟨by rw [hgw]; exact hn.1, hall hn.2⟩
/-- `updateFirstInForest` with a flag-preserving, invariant-preserving
function preserves the weak invariant. -/
theorem updW_forest : ∀ (f : MoveForest) (i : Nat) (g : MoveNode → MoveNode)
    (f' : MoveForest), updateFirstInForest i g f = some f' →
    (∀ m, nodeGroupsWeak m = true → nodeGroupsWeak (g m) = true) →
    (∀ m, (g m).data.isMainline = m.data.isMainline) →
    allNotMainline f' = allNotMainline f
    ∧ groupFlagsWeak f' = groupFlagsWeak f
    ∧ (forestGroupsWeakAll f = true → forestGroupsWeakAll f' = true)
  | .cons n t, i, g, f', h, hpres, hflag => by
    simp only [updateFirstInForest] at h
    rcases hn : updateFirstInSubtree i g n with _ | n'
    · rw [hn] at h
      rcases ht : updateFirstInForest i g t with _ | t'
      · rw [ht] at h; simp at h
      · rw [ht] at h
        simp only [Option.some.injEq] at h
        subst h
        obtain ⟨ha, hgw, hall⟩ := updW_forest t i g t' ht hpres hflag
        refine ⟨by simp [allNotMainline, ha], by simp [groupFlagsWeak, ha], ?_⟩
        intro hf
        simp only [forestGroupsWeakAll, Bool.and_eq_true] at hf ⊢
        exact ⟨hf.1, hall hf.2⟩
    · rw [hn] at h
      simp only [Option.some.injEq] at h
      subst h
      obtain ⟨hfl, hweak⟩ := updW_node n i g n' hn hpres hflag
      refine ⟨by simp [allNotMainline, hfl], by simp [groupFlagsWeak], ?_⟩
      intro hf
      simp only [forestGroupsWeakAll, Bool.and_eq_true] at hf ⊢
      exact ⟨hweak hf.1, hf.2⟩
end

/-- `insertMove` preserves the weak mainline invariant. -/
theorem insertW (t : RepertoireTree) (p : Option Nat) (san : String)
    (fen : Fen) (mn ply nid : Nat) (h : treeGroupsWeak t = true) :
    treeGroupsWeak (insertMove t p san fen mn ply nid).tree = true := by
  simp only [treeGroupsWeak, Bool.and_eq_true] at h
  cases p with
  | none =>
    simp only [insertMove, treeGroupsWeak, Bool.and_eq_true]
    refine ⟨groupFlagsWeak_append_one _ _ h.1 (by simp [freshNode]), ?_⟩
    rw [forestGroupsWeakAll_append]
    simp only [Bool.and_eq_true]
    refine ⟨h.2, ?_⟩
    show forestGroupsWeakAll (.cons _ .nil) = true
    simp only [forestGroupsWeakAll, Bool.and_eq_true]
    exact ⟨nodeGroupsWeak_of_nil_children _ (by simp [freshNode]), trivial⟩
  | some pid =>
    rcases hp : pushChildInForest pid (freshNode nid san fen (some pid) mn ply)
        t.children with _ | pr
    · simp only [insertMove, hp]
      simp only [treeGroupsWeak, Bool.and_eq_true]
      exact h
    · obtain ⟨ha, hg, hall⟩ := pushW_forest t.children pid _ pr hp rfl
      simp only [insertMove, hp]
      simp only [treeGroupsWeak, Bool.and_eq_true]
      exact ⟨by rw [hg]; exact h.1, hall h.2⟩

/-- `deleteSubtree` preserves the weak mainline invariant. -/
theorem deleteW (t : RepertoireTree) (nid : Nat)
    (h : treeGroupsWeak t = true) :
    treeGroupsWeak (deleteSubtree t nid) = true := by
  simp only [treeGroupsWeak, Bool.and_eq_true] at h
  obtain ⟨_, hg, hf⟩ := removeW t.children nid
  simp only [deleteSubtree, treeGroupsWeak, Bool.and_eq_true]
  exact ⟨hg h.1, hf h.2⟩

/-- `promoteVariation` preserves the weak mainline invariant. -/
theorem promoteVW (t : RepertoireTree) (pref : ParentRef) (cid : Nat)
    (h : treeGroupsWeak t = true) :
    treeGroupsWeak (promoteVariation t pref cid) = true := by
  simp only [treeGroupsWeak, Bool.and_eq_true] at h
  cases pref with
  | rootSentinel =>
    obtain ⟨hg, hf⟩ := promoteW t.children cid h.1 h.2
    simp only [promoteVariation, treeGroupsWeak, Bool.and_eq_true]
    exact ⟨hg, hf⟩
  | node pid =>
    rcases hu : updateFirstInForest pid
        (fun p => p.withChildren (promoteInList p.children cid))
        t.children with _ | cs
    · simp only [promoteVariation, hu]
      simp only [treeGroupsWeak, Bool.and_eq_true]
      exact h
    · have hpres : ∀ m, nodeGroupsWeak m = true →
          nodeGroupsWeak (m.withChildren (promoteInList m.children cid)) = true := by
        intro m hm
        rcases m with ⟨d, mcs⟩
        simp only [nodeGroupsWeak, Bool.and_eq_true] at hm
        obtain ⟨hg', hf'⟩ := promoteW mcs cid hm.1 hm.2
        show nodeGroupsWeak (.mk d (promoteInList mcs cid)) = true
        simp only [nodeGroupsWeak, Bool.and_eq_true]
        exact ⟨hg', hf'⟩
      obtain ⟨ha, hg, hall⟩ := updW_forest t.children pid _ cs hu hpres
        (fun m => by simp)
      simp only [promoteVariation, hu]
      simp only [treeGroupsWeak, Bool.and_eq_true]
      exact ⟨by rw [hg]; exact h.1, hall h.2⟩

/-! ## Claim C1 — the mainline invariant over reachable trees -/

/-- Claim C1 counterexample: the tree obtained by inserting the root moves
`e4` then `d4` and deleting the mainline `e4` is reachable, yet its root
sibling group is non-empty with *no* `isMainline = true` member — the
claimed "exactly one mainline member at index 0 in every non-empty sibling
group" is false for reachable trees. -/
theorem C1_counterexample :
    Reachable c1tree ∧ treeGroupsStrong c1tree = false :=
  ⟨.delete _ 1 (.insert _ none "d4" ["d4"] 1 1 2
      (.insert _ none "e4" ["e4"] 1 1 1 (.empty []))),
   by decide⟩

/-- Claim C1 (amended): for every tree reachable from the empty tree by
`insertMove`, `deleteSubtree` and `promoteVariation`, every sibling group
has *at most* one `isMainline = true` member, and that member (when
present) is at index 0.  ("Exactly one" fails: deleting a mainline child
with remaining siblings leaves a group with none, as the counterexample
shows; the source spec flags the missing auto-promotion itself.) -/
theorem C1_weak_mainline_invariant (t : RepertoireTree) (h : Reachable t) :
    treeGroupsWeak t = true := by
  induction h with
  | empty rootFen => rfl
  | insert t p san fen mn ply nid _ ih => exact insertW t p san fen mn ply nid ih
  | delete t nid _ ih => exact deleteW t nid ih
  | promote t pref cid _ ih => exact promoteVW t pref cid ih

/-- Witness for the amended C1 at the concrete reachable tree of the
counterexample. -/
theorem C1_weak_mainline_invariant_witness :
    Reachable c1tree ∧ treeGroupsWeak c1tree = true :=
  have hr : Reachable c1tree :=
    .delete _ 1 (.insert _ none "d4" ["d4"] 1 1 2
      (.insert _ none "e4" ["e4"] 1 1 1 (.empty [])))
  ⟨hr, C1_weak_mainline_invariant c1tree hr⟩

/-! ## Single-path insertion lemmas -/

@[simp] theorem insertMove_newNode_id (t : RepertoireTree) (p : Option Nat)
    (san : String) (fen : Fen) (mn ply nid : Nat) :
    (insertMove t p san fen mn ply nid).newNode.data.id = nid := by
  cases p with
  | none => simp [insertMove, freshNode]
  | some pid =>
    rcases hp : pushChildInForest pid (freshNode nid san fen (some pid) mn ply)
        t.children with _ | pr <;>
      simp only [freshNode] at hp <;>
      simp [insertMove, hp, freshNode]

/-- `insertPath` over a snoc onto a non-empty prefix: the last move is
inserted into the result of the others, with the chain's last id as
parent. -/
theorem insertPath_snoc : ∀ (ms : List InsertSpec) (m : InsertSpec)
    (t : RepertoireTree) (p : Option Nat) (nid : Nat), ms ≠ [] →
    insertPath t p (ms ++ [m]) nid
      = (insertMove (insertPath t p ms nid) (some (nid + ms.length - 1))
          m.san m.fen m.moveNumber m.plyFromRoot (nid + ms.length)).tree
  | [], _, _, _, _, hne => absurd rfl hne
  | [m0], m, t, p, nid, _ => by
    simp [insertPath, insertMove_newNode_id]
  | m0 :: m1 :: ms, m, t, p, nid, _ => by
    rw [show (m0 :: m1 :: ms) ++ [m] = m0 :: ((m1 :: ms) ++ [m]) from rfl]
    rw [show insertPath t p (m0 :: ((m1 :: ms) ++ [m])) nid
      = insertPath (insertMove t p m0.san m0.fen m0.moveNumber m0.plyFromRoot nid).tree
          (some (insertMove t p m0.san m0.fen m0.moveNumber
            m0.plyFromRoot nid).newNode.data.id)
          ((m1 :: ms) ++ [m]) (nid + 1) from rfl]
    rw [insertPath_snoc (m1 :: ms) m _ _ (nid + 1) (by simp)]
    rw [show insertPath t p (m0 :: m1 :: ms) nid
      = insertPath (insertMove t p m0.san m0.fen m0.moveNumber m0.plyFromRoot nid).tree
          (some (insertMove t p m0.san m0.fen m0.moveNumber
            m0.plyFromRoot nid).newNode.data.id)
          (m1 :: ms) (nid + 1) from rfl]
    rw [show nid + 1 + (m1 :: ms).length - 1 = nid + (m0 :: m1 :: ms).length - 1
      from by simp only [List.length_cons]; omega]
    rw [show nid + 1 + (m1 :: ms).length = nid + (m0 :: m1 :: ms).length
      from by simp only [List.length_cons]; omega]

/-- A non-empty chain is a `cons`. -/
theorem chainF_cons (m0 : InsertSpec) (ms : List InsertSpec) (p : Option Nat)
    (nid : Nat) : chainF p nid (m0 :: ms)
      = .cons
          (.mk
            { id := nid, san := m0.san, fen := m0.fen, parentId := p,
              comment := "", arrows := [], highlights := [], nags := [],
              isMainline := true, moveNumber := m0.moveNumber,
              plyFromRoot := m0.plyFromRoot, openingName := "" }
            (chainF (some nid) (nid + 1) ms)) .nil := rfl

/-- One unfolding step of `pushChildInForest` on a single-node forest whose
root is not the target. -/
theorem pushChildInForest_cons_single (i : Nat) (c : MoveNode) (d : MoveData)
    (inner : MoveForest) (hne : d.id ≠ i) :
    pushChildInForest i c (.cons (.mk d inner) .nil)
      = (match pushChildInForest i c inner with
         | some pr => some (.cons (.mk d pr.1) .nil, pr.2)
         | none => none) := by
  simp only [pushChildInForest, pushChildInSubtree, if_neg hne]
  rcases pushChildInForest i c inner with _ | pr
  · rfl
  · rfl

/-- Pushing the next chain link onto the deepest node of a chain extends
the chain. -/
theorem pushChain : ∀ (ms : List InsertSpec) (p : Option Nat) (nid k : Nat)
    (m : InsertSpec), ms.length = k + 1 →
    pushChildInForest (nid + k)
      (freshNode (nid + k + 1) m.san m.fen (some (nid + k)) m.moveNumber
        m.plyFromRoot)
      (chainF p nid ms)
    = some (chainF p nid (ms ++ [m]), true)
  | [], _, _, k, _, hlen => by simp at hlen
  | m0 :: ms, p, nid, k, m, hlen => by
    cases ms with
    | nil =>
      obtain rfl : k = 0 := by simp at hlen; omega
      simp [chainF, freshNode, pushChildInForest, pushChildInSubtree,
        MoveForest.isEmpty, MoveForest.append, MoveForest.single,
        MoveNode.withMainline]
    | cons m1 ms' =>
      have hk : k = ms'.length + 1 := by simp at hlen; omega
      obtain ⟨k', rfl⟩ : ∃ k', k = k' + 1 := ⟨ms'.length, hk⟩
      have hlen' : (m1 :: ms').length = k' + 1 := by simp at hlen ⊢; omega
      rw [show nid + (k' + 1) = nid + 1 + k' from by omega]
      rw [chainF_cons m0 (m1 :: ms') p nid]
      rw [pushChildInForest_cons_single _ _ _ _ (by simp; omega)]
      rw [pushChain (m1 :: ms') (some nid) (nid + 1) k' m hlen']
      rfl

/-- Inserting along a single path from the empty tree builds exactly the
chain forest. -/
theorem insertPath_chain (ms : List InsertSpec) : ∀ (rf : Fen) (nid : Nat),
    insertPath (emptyTree rf) none ms nid = ⟨rf, chainF none nid ms⟩ := by
  induction ms using List.reverseRecOn with
  | nil => intro rf nid; rfl
  | append_singleton ms m ih =>
    intro rf nid
    cases ms with
    | nil =>
      simp [insertPath, insertMove, chainF, freshNode, MoveForest.isEmpty,
        MoveForest.append, MoveForest.single, MoveNode.withMainline, emptyTree]
    | cons m0 ms' =>
      rw [insertPath_snoc (m0 :: ms') m (emptyTree rf) none nid (by simp),
        ih rf nid]
      simp only [insertMove]
      rw [show nid + (m0 :: ms').length - 1 = nid + ms'.length from by
        simp only [List.length_cons]; omega]
      rw [show nid + (m0 :: ms').length = nid + ms'.length + 1 from by
        simp only [List.length_cons]; omega]
      rw [pushChain (m0 :: ms') none nid ms'.length m (by simp)]

/-- Walking a chain forest yields exactly one line, whose SAN sequence is
the path prefix followed by the chain's SANs. -/
theorem walkChain : ∀ (ms : List InsertSpec) (p : Option Nat) (nid : Nat)
    (repId : String) (path : List MoveNode), ms ≠ [] →
    ∃ ℓ, walkForest repId (chainF p nid ms) path = [ℓ]
      ∧ ℓ.sanSequence
          = path.map (fun n => n.data.san) ++ ms.map (fun m => m.san)
  | [], _, _, _, _, hne => absurd rfl hne
  | [m0], p, nid, repId, path, _ => by
    refine ⟨lineOfPath repId (path ++ [.mk
      { id := nid, san := m0.san, fen := m0.fen, parentId := p,
        comment := "", arrows := [], highlights := [], nags := [],
        isMainline := true, moveNumber := m0.moveNumber,
        plyFromRoot := m0.plyFromRoot, openingName := "" } .nil]) m0.fen,
      ?_, ?_⟩
    · show walkNode repId (.mk _ .nil) path ++ walkForest repId .nil path = _
      simp [walkNode, walkForest, chainF]
    · simp [lineOfPath]
  | m0 :: m1 :: ms, p, nid, repId, path, _ => by
    obtain ⟨ℓ, h1, h2⟩ := walkChain (m1 :: ms) (some nid) (nid + 1) repId
      (path ++ [.mk
        { id := nid, san := m0.san, fen := m0.fen, parentId := p,
          comment := "", arrows := [], highlights := [], nags := [],
          isMainline := true, moveNumber := m0.moveNumber,
          plyFromRoot := m0.plyFromRoot, openingName := "" }
        (chainF (some nid) (nid + 1) (m1 :: ms))]) (by simp)
    refine ⟨ℓ, ?_, ?_⟩
    · rw [chainF_cons m0 (m1 :: ms) p nid]
      show walkNode repId (.mk _ (chainF (some nid) (nid + 1) (m1 :: ms))) path
          ++ walkForest repId .nil path = [ℓ]
      rw [chainF_cons m1 ms (some nid) (nid + 1)]
      show walkForest repId (.cons _ _) (path ++ [_]) ++ [] = [ℓ]
      rw [List.append_nil]
      rw [← chainF_cons m1 ms (some nid) (nid + 1)]
      exact h1
    · rw [h2]
      simp [List.map_append]

/-- Claim C9: for every non-empty sequence of moves inserted via
`insertMove` along a single path (each insertion's parent the previously
created node, the first with parent `null`, from the empty tree),
`extractAllLines` returns exactly one line, whose SAN sequence is the
inserted SAN sequence in insertion order. -/
theorem C9_single_path_extraction (rf : Fen) (repId : String)
    (ms : List InsertSpec) (nid : Nat) (h : ms ≠ []) :
    (extractAllLines (insertPath (emptyTree rf) none ms nid) repId).length = 1
    ∧ (extractAllLines (insertPath (emptyTree rf) none ms nid) repId).map
        (fun l => l.sanSequence) = [ms.map (fun m => m.san)] := by
  rw [insertPath_chain ms rf nid]
  obtain ⟨ℓ, h1, h2⟩ := walkChain ms none nid repId [] h
  have hx : extractAllLines (⟨rf, chainF none nid ms⟩ : RepertoireTree) repId
      = [{ ℓ with id := 0 }] := by
    simp only [extractAllLines]
    rw [h1]
    simp [List.mapIdx, List.mapIdx.go]
  rw [hx]
  refine ⟨rfl, ?_⟩
  show [({ ℓ with id := 0 } : RepertoireLine).sanSequence] = _
  have : ({ ℓ with id := 0 } : RepertoireLine).sanSequence = ℓ.sanSequence := rfl
  rw [this, h2]
  simp

/-- Witness for C9 at the concrete three-move insertion sequence. -/
theorem C9_single_path_extraction_witness :
    (extractAllLines (insertPath (emptyTree []) none demoSpecs 1) "rep").length = 1
    ∧ (extractAllLines (insertPath (emptyTree []) none demoSpecs 1) "rep").map
        (fun l => l.sanSequence) = [["e4", "e5", "Nf3"]] := by
  refine ⟨(C9_single_path_extraction [] "rep" demoSpecs 1 (by decide)).1, ?_⟩
  rw [(C9_single_path_extraction [] "rep" demoSpecs 1 (by decide)).2]
  rfl

/-! ## Tokenizer matcher shape lemmas -/

theorem dropLit_shape : ∀ (pat s r : List Char),
    dropLit pat s = some r → s = pat ++ r
  | [], s, r, h => by simpa [dropLit] using h
  | p :: ps, [], r, h => by simp [dropLit] at h
  | p :: ps, c :: cs, r, h => by
    simp only [dropLit] at h
    by_cases hc : c = p
    · rw [if_pos hc] at h
      rw [hc, List.cons_append]
      exact congrArg _ (dropLit_shape ps cs r h)
    · rw [if_neg hc] at h; exact absurd h (by simp)

theorem splitAtClose_shape : ∀ (s b a : List Char),
    splitAtClose s = some (b, a) → s = b ++ '\x7d' :: a
  | [], b, a, h => by simp [splitAtClose] at h
  | c :: cs, b, a, h => by
    simp only [splitAtClose] at h
    by_cases hc : c = '\x7d'
    · rw [if_pos hc] at h
      simp only [Option.some.injEq, Prod.mk.injEq] at h
      rw [hc, ← h.1, ← h.2]
      rfl
    · rw [if_neg hc] at h
      rcases hs : splitAtClose cs with _ | ⟨b', a'⟩
      · rw [hs] at h; simp at h
      · rw [hs] at h
        simp only [Option.map_some', Option.some.injEq, Prod.mk.injEq] at h
        have := splitAtClose_shape cs b' a' hs
        rw [← h.1, ← h.2, this, List.cons_append]

theorem splitAtClose_none : ∀ (s : List Char),
    splitAtClose s = none → '\x7d' ∉ s
  | [], _ => by simp
  | c :: cs, h => by
    simp only [splitAtClose] at h
    by_cases hc : c = '\x7d'
    · rw [if_pos hc] at h; simp at h
    · rw [if_neg hc] at h
      rcases hs : splitAtClose cs with _ | p
      · simp only [List.mem_cons, not_or]
        exact ⟨fun he => hc he.symm, splitAtClose_none cs hs⟩
      · rw [hs] at h; simp at h

theorem splitAtClose_of_not_mem : ∀ (s : List Char),
    '\x7d' ∉ s → splitAtClose s = none
  | [], _ => rfl
  | c :: cs, h => by
    simp only [List.mem_cons, not_or] at h
    simp only [splitAtClose, if_neg (Ne.symm h.1),
      splitAtClose_of_not_mem cs h.2]
    rfl

theorem takeDigits_shape : ∀ (s : List Char), s = (takeDigits s).1 ++ (takeDigits s).2
  | [] => rfl
  | c :: cs => by
    simp only [takeDigits]
    by_cases hc : c.isDigit
    · simp only [if_pos hc, List.cons_append]
      exact congrArg _ (takeDigits_shape cs)
    · simp [if_neg hc]

theorem matchResult_shape (s : List Char) (q : List Char × List Char)
    (h : matchResult s = some q) : s = q.1 ++ q.2 ∧ q.1 ≠ [] := by
  simp only [matchResult] at h
  rcases h1 : dropLit ['1', '-', '0'] s with _ | r <;> rw [h1] at h
  case some =>
    simp only [Option.some.injEq] at h
    subst h
    exact ⟨dropLit_shape _ s r h1, by simp⟩
  all_goals (
    rcases h2 : dropLit ['0', '-', '1'] s with _ | r <;> rw [h2] at h
    case some =>
      simp only [Option.some.injEq] at h
      subst h
      exact ⟨dropLit_shape _ s r h2, by simp⟩
    all_goals (
      rcases h3 : dropLit ['1', '/', '2', '-', '1', '/', '2'] s with _ | r <;>
        rw [h3] at h
      case some =>
        simp only [Option.some.injEq] at h
        subst h
        exact ⟨dropLit_shape _ s r h3, by simp⟩
      all_goals (
        rcases h4 : dropLit ['*'] s with _ | r <;> rw [h4] at h
        case some =>
          simp only [Option.some.injEq] at h
          subst h
          exact ⟨dropLit_shape _ s r h4, by simp⟩
        all_goals simp at h)))

theorem matchMoveNum_shape (s : List Char) (q : List Char × List Char)
    (h : matchMoveNum s = some q) : s = q.1 ++ q.2 ∧ q.1 ≠ [] := by
  simp only [matchMoveNum] at h
  by_cases hds : (takeDigits s).1.isEmpty
  · rw [if_pos hds] at h; simp at h
  · rw [if_neg hds] at h
    have hsh := takeDigits_shape s
    split at h
    · split at h
      · rename_i heq
        simp only [Option.some.injEq] at h
        subst h
        refine ⟨?_, by simp⟩
        conv_lhs => rw [hsh, heq]
        simp
      · rename_i heq rdum hno
        simp only [Option.some.injEq] at h
        subst h
        refine ⟨?_, by simp⟩
        conv_lhs => rw [hsh, heq]
        simp
    · simp at h

/-! ## SAN matcher shape lemmas -/

theorem sanPromo_shape (s : List Char) :
    s = (match s with
        | '=' :: c :: rest => if isPromoCh c = true then (['=', c], rest) else ([], s)
        | _ => (([] : List Char), s)).1 ++
      (match s with
        | '=' :: c :: rest => if isPromoCh c = true then (['=', c], rest) else ([], s)
        | _ => (([] : List Char), s)).2 := by
  split
  · split <;> simp
  · simp

theorem sanTail_shape (s : List Char) : s = (sanTail s).1 ++ (sanTail s).2 := by
  simp only [sanTail]
  split
  · rename_i c rest heq
    by_cases hcc : isCheckCh c = true
    · rw [if_pos hcc]
      have hp := sanPromo_shape s
      rw [heq] at hp
      simpa [List.append_assoc] using hp
    · rw [if_neg hcc]
      exact sanPromo_shape s
  · exact sanPromo_shape s

theorem sanCore_shape : ∀ (s : List Char) (q : List Char × List Char),
    sanCore s = some q → s = q.1 ++ q.2 ∧ q.1 ≠ [] := by
  intro s q h
  rcases s with _ | ⟨f, _ | ⟨r, rest⟩⟩
  · simp [sanCore] at h
  · simp [sanCore] at h
  · simp only [sanCore] at h
    split at h
    · simp only [Option.some.injEq] at h
      subst h
      refine ⟨?_, by simp⟩
      simp only [List.cons_append, List.cons.injEq, true_and]
      exact sanTail_shape rest
    · simp at h

theorem tryOpt_shape (p : Char → Bool) (k : List Char → Option (List Char × List Char))
    (hk : ∀ s q, k s = some q → s = q.1 ++ q.2 ∧ q.1 ≠ []) :
    ∀ (s : List Char) (q : List Char × List Char),
      tryOpt p k s = some q → s = q.1 ++ q.2 ∧ q.1 ≠ []
  | [], q, h => by simpa using hk [] q h
  | c :: rest, q, h => by
    simp only [tryOpt] at h
    by_cases hp : p c = true
    · rw [if_pos hp] at h
      rcases hkr : k rest with _ | q'
      · rw [hkr] at h
        exact hk _ q h
      · rw [hkr] at h
        simp only [Option.some.injEq] at h
        subst h
        refine ⟨?_, by simp⟩
        simp only [List.cons_append, List.cons.injEq, true_and]
        exact (hk rest q' hkr).1
    · rw [if_neg hp] at h
      exact hk _ q h

theorem sanBody_shape (s : List Char) (q : List Char × List Char)
    (h : sanBody s = some q) : s = q.1 ++ q.2 ∧ q.1 ≠ [] :=
  tryOpt_shape _ _ (tryOpt_shape _ _ (tryOpt_shape _ _ (tryOpt_shape _ _ sanCore_shape))) s q h

theorem matchSAN_shape (s : List Char) (q : List Char × List Char)
    (h : matchSAN s = some q) : s = q.1 ++ q.2 ∧ q.1 ≠ [] := by
  simp only [matchSAN] at h
  rcases hb : sanBody s with _ | qb <;> rw [hb] at h <;> dsimp only at h
  · rcases h5 : dropLit ['O', '-', 'O', '-', 'O'] s with _ | r <;> rw [h5] at h <;> dsimp only at h
    · rcases h3 : dropLit ['O', '-', 'O'] s with _ | r <;> rw [h3] at h <;> dsimp only at h
      · simp at h
      · have hsh := dropLit_shape _ s r h3
        split at h
        · split at h
          · simp only [Option.some.injEq] at h
            subst h
            refine ⟨?_, by simp⟩
            rw [hsh]
            simp
          · simp only [Option.some.injEq] at h
            subst h
            exact ⟨hsh, by simp⟩
        · simp only [Option.some.injEq] at h
          subst h
          exact ⟨hsh, by simp⟩
    · have hsh := dropLit_shape _ s r h5
      split at h
      · split at h
        · simp only [Option.some.injEq] at h
          subst h
          refine ⟨?_, by simp⟩
          rw [hsh]
          simp
        · simp only [Option.some.injEq] at h
          subst h
          exact ⟨hsh, by simp⟩
      · simp only [Option.some.injEq] at h
        subst h
        exact ⟨hsh, by simp⟩
  · have hsh := sanBody_shape s qb hb
    split at h
    · rename_i c rest heq
      split at h
      · simp only [Option.some.injEq] at h
        subst h
        refine ⟨?_, by simp⟩
        rw [hsh.1, heq]
        simp
      · simp only [Option.some.injEq] at h
        subst h
        exact hsh
    · simp only [Option.some.injEq] at h
      subst h
      exact hsh

/-! ## Tokenizer fuel stability and unterminated-comment behaviour -/

/-- Any fuel at least the input length gives the same token stream. -/
theorem tokenizeAux_fuel : ∀ (n f g : Nat) (s : List Char),
    s.length ≤ n → s.length ≤ f → s.length ≤ g →
    tokenizeAux f s = tokenizeAux g s := by
  intro n
  induction n with
  | zero =>
    intro f g s hn _ _
    have hs : s = [] := List.eq_nil_of_length_eq_zero (Nat.le_zero.mp hn)
    subst hs
    cases f <;> cases g <;> rfl
  | succ n ih =>
    intro f g s hn hf hg
    rcases s with _ | ⟨c, rest⟩
    · cases f <;> cases g <;> rfl
    · rcases f with _ | f'
      · simp at hf
      · rcases g with _ | g'
        · simp at hg
        · have hlen : rest.length ≤ n ∧ rest.length ≤ f' ∧ rest.length ≤ g' := by
            simp at hn hf hg
            omega
          simp only [tokenizeAux]
          by_cases h1 : jsSpace c = true
          · rw [if_pos h1, if_pos h1]
            exact ih f' g' rest hlen.1 hlen.2.1 hlen.2.2
          · rw [if_neg h1, if_neg h1]
            by_cases h2 : c = '\x7b'
            · rw [if_pos h2, if_pos h2]
              rcases hsp : splitAtClose rest with _ | ⟨b, a⟩
              · rfl
              · have hsh := splitAtClose_shape rest b a hsp
                have ha : a.length ≤ n ∧ a.length ≤ f' ∧ a.length ≤ g' := by
                  have hL : rest.length = b.length + (a.length + 1) := by
                    rw [hsh]
                    simp
                  simp at hn hf hg
                  omega
                have hrec := ih f' g' a ha.1 ha.2.1 ha.2.2
                dsimp only
                by_cases hcm : (trimChars b).isEmpty = true
                · rw [if_pos hcm, if_pos hcm]
                  exact hrec
                · rw [if_neg hcm, if_neg hcm, hrec]
            · rw [if_neg h2, if_neg h2]
              by_cases h3 : c = '('
              · rw [if_pos h3, if_pos h3, ih f' g' rest hlen.1 hlen.2.1 hlen.2.2]
              · rw [if_neg h3, if_neg h3]
                by_cases h4 : c = ')'
                · rw [if_pos h4, if_pos h4, ih f' g' rest hlen.1 hlen.2.1 hlen.2.2]
                · rw [if_neg h4, if_neg h4]
                  by_cases h5 : c = '$'
                  · rw [if_pos h5, if_pos h5]
                    have hsh := takeDigits_shape rest
                    have ha : (takeDigits rest).2.length ≤ n
                        ∧ (takeDigits rest).2.length ≤ f'
                        ∧ (takeDigits rest).2.length ≤ g' := by
                      have hL : rest.length
                          = (takeDigits rest).1.length + (takeDigits rest).2.length := by
                        conv_lhs => rw [hsh]
                        simp
                      simp at hn hf hg
                      omega
                    have hrec := ih f' g' (takeDigits rest).2 ha.1 ha.2.1 ha.2.2
                    try dsimp only
                    by_cases hds : (takeDigits rest).1.isEmpty = true
                    · rw [if_pos hds, if_pos hds]
                      exact hrec
                    · rw [if_neg hds, if_neg hds, hrec]
                  · rw [if_neg h5, if_neg h5]
                    rcases hmr : matchResult (c :: rest) with _ | q
                    · try simp only [Option.map_none', Option.map_some']
                      rcases hmm : matchMoveNum (c :: rest) with _ | q
                      · try simp only [Option.map_none', Option.map_some']
                        rcases hms : matchSAN (c :: rest) with _ | q
                        · try simp only [Option.map_none', Option.map_some']
                          exact ih f' g' rest hlen.1 hlen.2.1 hlen.2.2
                        · have hsh := matchSAN_shape (c :: rest) q hms
                          have ha : q.2.length ≤ n ∧ q.2.length ≤ f' ∧ q.2.length ≤ g' := by
                            have hL : rest.length + 1 = q.1.length + q.2.length := by
                              have := congrArg List.length hsh.1
                              simpa using this
                            have h1L : 1 ≤ q.1.length := List.length_pos.mpr hsh.2
                            simp at hn hf hg
                            omega
                          try simp only [Option.map_none', Option.map_some']
                          rw [ih f' g' q.2 ha.1 ha.2.1 ha.2.2]
                      · have hsh := matchMoveNum_shape (c :: rest) q hmm
                        have ha : q.2.length ≤ n ∧ q.2.length ≤ f' ∧ q.2.length ≤ g' := by
                          have hL : rest.length + 1 = q.1.length + q.2.length := by
                            have := congrArg List.length hsh.1
                            simpa using this
                          have h1L : 1 ≤ q.1.length := List.length_pos.mpr hsh.2
                          simp at hn hf hg
                          omega
                        try simp only [Option.map_none', Option.map_some']
                        rw [ih f' g' q.2 ha.1 ha.2.1 ha.2.2]
                    · have hsh := matchResult_shape (c :: rest) q hmr
                      have ha : q.2.length ≤ n ∧ q.2.length ≤ f' ∧ q.2.length ≤ g' := by
                        have hL : rest.length + 1 = q.1.length + q.2.length := by
                          have := congrArg List.length hsh.1
                          simpa using this
                        have h1L : 1 ≤ q.1.length := List.length_pos.mpr hsh.2
                        simp at hn hf hg
                        omega
                      try simp only [Option.map_none', Option.map_some']
                      rw [ih f' g' q.2 ha.1 ha.2.1 ha.2.2]

theorem dropLit_extend_some : ∀ (pat a r z : List Char),
    dropLit pat a = some r → dropLit pat (a ++ z) = some (r ++ z)
  | [], a, r, z, h => by
    simp only [dropLit, Option.some.injEq] at h
    subst h
    rfl
  | p :: ps, [], r, z, h => by simp [dropLit] at h
  | p :: ps, c :: cs, r, z, h => by
    simp only [dropLit] at h
    by_cases hc : c = p
    · rw [if_pos hc] at h
      simp only [List.cons_append, dropLit, if_pos hc]
      exact dropLit_extend_some ps cs r z h
    · rw [if_neg hc] at h
      simp at h

theorem dropLit_extend_none : ∀ (pat a z : List Char), '\x7b' ∉ pat →
    dropLit pat a = none → dropLit pat (a ++ '\x7b' :: z) = none
  | [], a, z, _, h => by simp [dropLit] at h
  | p :: ps, [], z, hp, _ => by
    have hne : ¬('\x7b' = p) := by
      intro he
      exact hp (by rw [he]; exact List.mem_cons_self p ps)
    simp [dropLit, hne]
  | p :: ps, c :: cs, z, hp, h => by
    simp only [dropLit] at h
    by_cases hc : c = p
    · rw [if_pos hc] at h
      simp only [List.cons_append, dropLit, if_pos hc]
      exact dropLit_extend_none ps cs z (fun hm => hp (List.mem_cons_of_mem _ hm)) h
    · simp only [List.cons_append, dropLit, if_neg hc]

theorem takeDigits_extend : ∀ (a z : List Char),
    takeDigits (a ++ '\x7b' :: z) = ((takeDigits a).1, (takeDigits a).2 ++ '\x7b' :: z)
  | [], z => by
    simp [takeDigits, show ('\x7b').isDigit = false from by decide]
  | c :: a, z => by
    simp only [List.cons_append, takeDigits]
    by_cases hc : c.isDigit
    · simp [if_pos hc, takeDigits_extend a z]
    · simp [if_neg hc]

theorem splitAtClose_extend_some : ∀ (a b r z : List Char),
    splitAtClose a = some (b, r) → splitAtClose (a ++ z) = some (b, r ++ z)
  | [], b, r, z, h => by simp [splitAtClose] at h
  | c :: cs, b, r, z, h => by
    simp only [splitAtClose] at h
    by_cases hc : c = '\x7d'
    · rw [if_pos hc] at h
      simp only [Option.some.injEq, Prod.mk.injEq] at h
      simp only [List.cons_append, splitAtClose, if_pos hc]
      rw [← h.1, ← h.2]
      rfl
    · rw [if_neg hc] at h
      rcases hs : splitAtClose cs with _ | ⟨b', r'⟩ <;> rw [hs] at h
      · simp at h
      · simp only [Option.map_some', Option.some.injEq, Prod.mk.injEq] at h
        simp only [List.cons_append, splitAtClose, if_neg hc, List.append_eq]
        rw [splitAtClose_extend_some cs b' r' z hs]
        simp [← h.1, ← h.2]

theorem matchResult_extend (a z : List Char) :
    matchResult (a ++ '\x7b' :: z)
      = (matchResult a).map (fun q => (q.1, q.2 ++ '\x7b' :: z)) := by
  simp only [matchResult]
  rcases h1 : dropLit ['1', '-', '0'] a with _ | r
  · rw [dropLit_extend_none _ _ _ (by decide) h1]
    rcases h2 : dropLit ['0', '-', '1'] a with _ | r
    · rw [dropLit_extend_none _ _ _ (by decide) h2]
      rcases h3 : dropLit ['1', '/', '2', '-', '1', '/', '2'] a with _ | r
      · rw [dropLit_extend_none _ _ _ (by decide) h3]
        rcases h4 : dropLit ['*'] a with _ | r
        · rw [dropLit_extend_none _ _ _ (by decide) h4]
          rfl
        · rw [dropLit_extend_some _ _ _ _ h4]
          rfl
      · rw [dropLit_extend_some _ _ _ _ h3]
        rfl
    · rw [dropLit_extend_some _ _ _ _ h2]
      rfl
  · rw [dropLit_extend_some _ _ _ _ h1]
    rfl

theorem promoMatch_cases (s : List Char) :
    (∃ c rest, s = '=' :: c :: rest ∧ isPromoCh c = true ∧
        (match s with
         | '=' :: c :: rest => if isPromoCh c = true then (['=', c], rest) else ([], s)
         | _ => (([] : List Char), s)) = (['=', c], rest))
    ∨ ((match s with
         | '=' :: c :: rest => if isPromoCh c = true then (['=', c], rest) else ([], s)
         | _ => (([] : List Char), s)) = ([], s)
        ∧ ∀ c rest, s = '=' :: c :: rest → isPromoCh c = false) := by
  split
  · rename_i c rest
    by_cases hpc : isPromoCh c = true
    · exact Or.inl ⟨c, rest, rfl, hpc, by rw [if_pos hpc]⟩
    · refine Or.inr ⟨by rw [if_neg hpc], ?_⟩
      intro c' rest' he
      have h2 : c = c' := by
        injection he with ha hb
        injection hb with hc hd
      subst h2
      simpa using hpc
  · rename_i hno
    exact Or.inr ⟨rfl, fun c rest he => (hno c rest he).elim⟩

theorem sanTail_extend (a z : List Char) :
    sanTail (a ++ '\x7b' :: z) = ((sanTail a).1, (sanTail a).2 ++ '\x7b' :: z) := by
  rcases promoMatch_cases a with ⟨c, rest, hshape, hpc, hpeq⟩ | ⟨hpeq, hno⟩
  · subst hshape
    show sanTail ('=' :: c :: (rest ++ '\x7b' :: z)) = _
    simp only [sanTail, if_pos hpc]
    rcases rest with _ | ⟨c3, r3⟩
    · simp [show isCheckCh '\x7b' = false from rfl]
    · simp only [List.cons_append]
      by_cases hcc : isCheckCh c3 = true
      · simp [hcc]
      · simp [hcc]
  · rcases promoMatch_cases (a ++ '\x7b' :: z) with ⟨c', rest', hsh', hpc', hpeq'⟩ | ⟨hpeq', hno'⟩
    · exfalso
      rcases a with _ | ⟨c1, a1⟩
      · simp only [List.nil_append] at hsh'
        injection hsh' with h1 h2
        exact absurd h1 (by decide)
      · simp only [List.cons_append] at hsh'
        injection hsh' with h1 h2
        subst h1
        rcases a1 with _ | ⟨c2, a2⟩
        · simp only [List.nil_append] at h2
          injection h2 with h3 h4
          rw [← h3] at hpc'
          exact absurd hpc' (by decide)
        · simp only [List.cons_append] at h2
          injection h2 with h3 h4
          have hfalse := hno c2 a2 rfl
          rw [h3] at hfalse
          rw [hfalse] at hpc'
          exact absurd hpc' (by decide)
    · simp only [sanTail]
      rw [hpeq', hpeq]
      rcases a with _ | ⟨c1, a1⟩
      · simp [show isCheckCh '\x7b' = false from rfl]
      · simp only [List.cons_append]
        by_cases hcc : isCheckCh c1 = true
        · simp [hcc]
        · simp [hcc]

theorem sanCore_extend : ∀ (a z : List Char),
    sanCore (a ++ '\x7b' :: z) = (sanCore a).map (fun q => (q.1, q.2 ++ '\x7b' :: z))
  | [], z => by
    rcases z with _ | ⟨c2, z2⟩
    · rfl
    · simp [sanCore, show isFileCh '\x7b' = false from by decide]
  | [f], z => by
    simp [sanCore, show isRankCh '\x7b' = false from by decide]
  | f :: r :: rest, z => by
    simp only [List.cons_append, sanCore]
    by_cases hc : (isFileCh f && isRankCh r) = true
    · rw [if_pos hc, if_pos hc]
      simp [sanTail_extend]
    · rw [if_neg hc, if_neg hc]
      rfl

theorem tryOpt_extend (p : Char → Bool) (k : List Char → Option (List Char × List Char))
    (z : List Char) (hp : p '\x7b' = false)
    (hk : ∀ a, k (a ++ '\x7b' :: z) = (k a).map (fun q => (q.1, q.2 ++ '\x7b' :: z))) :
    ∀ a, tryOpt p k (a ++ '\x7b' :: z)
      = (tryOpt p k a).map (fun q => (q.1, q.2 ++ '\x7b' :: z))
  | [] => by
    simp only [List.nil_append, tryOpt, hp]
    have hk0 := hk []
    simpa using hk0
  | c :: a => by
    simp only [List.cons_append, tryOpt]
    by_cases hpc : p c = true
    · rw [if_pos hpc, if_pos hpc]
      rw [hk a]
      rcases hka : k a with _ | q
      · simp only [Option.map_none']
        rw [show c :: (a ++ '\x7b' :: z) = (c :: a) ++ '\x7b' :: z from rfl, hk (c :: a)]
      · simp
    · rw [if_neg hpc, if_neg hpc]
      rw [show c :: (a ++ '\x7b' :: z) = (c :: a) ++ '\x7b' :: z from rfl]
      exact hk (c :: a)

theorem sanBody_extend (a z : List Char) :
    sanBody (a ++ '\x7b' :: z) = (sanBody a).map (fun q => (q.1, q.2 ++ '\x7b' :: z)) := by
  refine tryOpt_extend _ _ _ (by decide) ?_ a
  intro a1
  refine tryOpt_extend _ _ _ (by decide) ?_ a1
  intro a2
  refine tryOpt_extend _ _ _ (by decide) ?_ a2
  intro a3
  refine tryOpt_extend _ _ _ (by decide) ?_ a3
  intro a4
  exact sanCore_extend a4 z

theorem matchSAN_extend (a z : List Char) :
    matchSAN (a ++ '\x7b' :: z) = (matchSAN a).map (fun q => (q.1, q.2 ++ '\x7b' :: z)) := by
  simp only [matchSAN]
  rw [sanBody_extend]
  rcases hb : sanBody a with _ | qb
  · simp only [Option.map_none']
    rcases h5 : dropLit ['O', '-', 'O', '-', 'O'] a with _ | r
    · rw [dropLit_extend_none _ _ _ (by decide) h5]
      rcases h3 : dropLit ['O', '-', 'O'] a with _ | r
      · rw [dropLit_extend_none _ _ _ (by decide) h3]
        rfl
      · rw [dropLit_extend_some _ _ _ _ h3]
        rcases r with _ | ⟨c, rr⟩
        · simp [show isCheckCh '\x7b' = false from rfl]
        · simp only [List.cons_append]
          by_cases hcc : isCheckCh c = true
          · simp [hcc]
          · simp [hcc]
    · rw [dropLit_extend_some _ _ _ _ h5]
      rcases r with _ | ⟨c, rr⟩
      · simp [show isCheckCh '\x7b' = false from rfl]
      · simp only [List.cons_append]
        by_cases hcc : isCheckCh c = true
        · simp [hcc]
        · simp [hcc]
  · simp only [Option.map_some']
    rcases qb with ⟨u, v⟩
    rcases v with _ | ⟨c, rr⟩
    · simp [show isCheckCh '\x7b' = false from rfl]
    · simp only [List.cons_append]
      by_cases hcc : isCheckCh c = true
      · simp [hcc]
      · simp [hcc]

theorem matchMoveNum_extend_some (a z : List Char) (q : List Char × List Char)
    (h : matchMoveNum a = some q) :
    matchMoveNum (a ++ '\x7b' :: z) = some (q.1, q.2 ++ '\x7b' :: z) := by
  simp only [matchMoveNum] at h ⊢
  rw [takeDigits_extend]
  simp only [Option.map_none', Option.map_some']
  by_cases hds : (takeDigits a).1.isEmpty = true
  · rw [if_pos hds] at h
    simp at h
  · rw [if_neg hds] at h
    rw [if_neg hds]
    split at h
    · split at h
      · rename_i heq
        simp only [Option.some.injEq] at h
        subst h
        rw [heq]
        simp
      · rename_i x1 r2 heq rdum hno
        simp only [Option.some.injEq] at h
        subst h
        rw [heq]
        simp only [List.cons_append]
        rcases r2 with _ | ⟨c3, r3⟩
        · simp
        · simp only [List.cons_append]
          split
          · rename_i rx heqx
            injection heqx with hc3 htl
            exfalso
            rcases r3 with _ | ⟨c4, r4⟩
            · simp only [List.nil_append] at htl
              injection htl with hc4 _
              exact absurd hc4 (by decide)
            · simp only [List.cons_append] at htl
              injection htl with hc4 _
              exact hno r4 (by rw [hc3, hc4])
          · simp
    · simp at h

theorem matchMoveNum_extend_none (a z : List Char)
    (h : matchMoveNum a = none) :
    matchMoveNum (a ++ '\x7b' :: z) = none := by
  simp only [matchMoveNum] at h ⊢
  rw [takeDigits_extend]
  simp only [Option.map_none', Option.map_some']
  by_cases hds : (takeDigits a).1.isEmpty = true
  · rw [if_pos hds]
  · rw [if_neg hds] at h
    rw [if_neg hds]
    split at h
    · split at h <;> simp at h
    · rename_i x1 hno
      rcases ht : (takeDigits a).2 with _ | ⟨c2, r2⟩
      · simp
      · rw [ht] at hno
        simp only [List.cons_append]
        split
        · rename_i rx heqx
          injection heqx with hc2 _
          exact (hno r2 (by rw [hc2])).elim
        · rfl

theorem bracesClosed_suffix (u v : List Char) (h : bracesClosed (u ++ v)) :
    bracesClosed v :=
  fun r₁ r₂ he => h (u ++ r₁) r₂ (by rw [he, List.append_assoc])

theorem tokenizeAux_open_drop (F : Nat) (w : List Char) (hw : '\x7d' ∉ w) :
    tokenizeAux (F + 1) ('\x7b' :: w) = [] := by
  simp only [tokenizeAux]
  rw [if_neg (by decide : ¬jsSpace '\x7b' = true), if_pos trivial,
    splitAtClose_of_not_mem w hw]

/-- Scanning `r ++ '\x7b' :: w` with the brace unmatched produces exactly the
tokens of `r`. -/
theorem tokenizeAux_drop : ∀ (n F G : Nat) (r w : List Char),
    bracesClosed r → '\x7d' ∉ w →
    r.length ≤ n → r.length + (w.length + 1) ≤ F → r.length ≤ G →
    tokenizeAux F (r ++ '\x7b' :: w) = tokenizeAux G r := by
  intro n
  induction n with
  | zero =>
    intro F G r w hbc hw hn hF hG
    have hr : r = [] := List.eq_nil_of_length_eq_zero (Nat.le_zero.mp hn)
    subst hr
    rcases F with _ | F'
    · simp at hF
    · rw [List.nil_append, tokenizeAux_open_drop F' w hw]
      cases G <;> rfl
  | succ n ih =>
    intro F G r w hbc hw hn hF hG
    rcases r with _ | ⟨c, rest⟩
    · rcases F with _ | F'
      · simp at hF
      · rw [List.nil_append, tokenizeAux_open_drop F' w hw]
        cases G <;> rfl
    · rcases F with _ | F'
      · simp at hF
      · rcases G with _ | G'
        · simp at hG
        · have hb : rest.length ≤ n ∧ rest.length + (w.length + 1) ≤ F'
              ∧ rest.length ≤ G' := by
            simp at hn hF hG
            omega
          have hbc' : bracesClosed rest := bracesClosed_suffix [c] rest hbc
          rw [List.cons_append]
          simp only [tokenizeAux]
          by_cases h1 : jsSpace c = true
          · rw [if_pos h1, if_pos h1]
            exact ih F' G' rest w hbc' hw hb.1 hb.2.1 hb.2.2
          · rw [if_neg h1, if_neg h1]
            by_cases h2 : c = '\x7b'
            · rw [if_pos h2, if_pos h2]
              subst h2
              rcases hsp : splitAtClose rest with _ | ⟨b, a⟩
              · exact absurd (hbc [] rest rfl) (splitAtClose_none rest hsp)
              · rw [splitAtClose_extend_some rest b a ('\x7b' :: w) hsp]
                have hshape := splitAtClose_shape rest b a hsp
                have hbca : bracesClosed a := by
                  refine bracesClosed_suffix ('\x7b' :: (b ++ ['\x7d'])) a ?_
                  have he : '\x7b' :: (b ++ ['\x7d']) ++ a = '\x7b' :: rest := by
                    rw [hshape]
                    simp
                  rw [he]
                  exact hbc
                have hba : a.length ≤ n ∧ a.length + (w.length + 1) ≤ F'
                    ∧ a.length ≤ G' := by
                  have hL : rest.length = b.length + (a.length + 1) := by
                    rw [hshape]
                    simp
                  simp at hn hF hG
                  omega
                have hrec := ih F' G' a w hbca hw hba.1 hba.2.1 hba.2.2
                simp only [Option.map_none', Option.map_some']
                by_cases hcm : (trimChars b).isEmpty = true
                · rw [if_pos hcm, if_pos hcm]
                  exact hrec
                · rw [if_neg hcm, if_neg hcm, hrec]
            · rw [if_neg h2, if_neg h2]
              by_cases h3 : c = '('
              · rw [if_pos h3, if_pos h3,
                  ih F' G' rest w hbc' hw hb.1 hb.2.1 hb.2.2]
              · rw [if_neg h3, if_neg h3]
                by_cases h4 : c = ')'
                · rw [if_pos h4, if_pos h4,
                    ih F' G' rest w hbc' hw hb.1 hb.2.1 hb.2.2]
                · rw [if_neg h4, if_neg h4]
                  by_cases h5 : c = '$'
                  · rw [if_pos h5, if_pos h5]
                    rw [takeDigits_extend rest w]
                    have hsh := takeDigits_shape rest
                    have hsuf : bracesClosed (takeDigits rest).2 := by
                      refine bracesClosed_suffix (c :: (takeDigits rest).1) _ ?_
                      have he : c :: (takeDigits rest).1 ++ (takeDigits rest).2
                          = c :: rest := by
                        conv_rhs => rw [hsh]
                        rw [List.cons_append]
                      rw [he]
                      exact hbc
                    have hlen : (takeDigits rest).2.length ≤ n
                        ∧ (takeDigits rest).2.length + (w.length + 1) ≤ F'
                        ∧ (takeDigits rest).2.length ≤ G' := by
                      have hL : rest.length
                          = (takeDigits rest).1.length + (takeDigits rest).2.length := by
                        conv_lhs => rw [hsh]
                        simp
                      simp at hn hF hG
                      omega
                    have hrec := ih F' G' (takeDigits rest).2 w hsuf hw
                      hlen.1 hlen.2.1 hlen.2.2
                    simp only [Option.map_none', Option.map_some']
                    by_cases hds : (takeDigits rest).1.isEmpty = true
                    · rw [if_pos hds, if_pos hds]
                      exact hrec
                    · rw [if_neg hds, if_neg hds, hrec]
                  · rw [if_neg h5, if_neg h5]
                    rcases hmr : matchResult (c :: rest) with _ | q
                    · rw [show matchResult (c :: (rest ++ '\x7b' :: w))
                          = matchResult ((c :: rest) ++ '\x7b' :: w) from rfl,
                        matchResult_extend (c :: rest) w, hmr]
                      simp only [Option.map_none', Option.map_some']
                      rcases hmm : matchMoveNum (c :: rest) with _ | q
                      · rw [show matchMoveNum (c :: (rest ++ '\x7b' :: w))
                            = matchMoveNum ((c :: rest) ++ '\x7b' :: w) from rfl,
                          matchMoveNum_extend_none (c :: rest) w hmm]
                        simp only [Option.map_none', Option.map_some']
                        rcases hms : matchSAN (c :: rest) with _ | q
                        · rw [show matchSAN (c :: (rest ++ '\x7b' :: w))
                              = matchSAN ((c :: rest) ++ '\x7b' :: w) from rfl,
                            matchSAN_extend (c :: rest) w, hms]
                          simp only [Option.map_none', Option.map_some']
                          exact ih F' G' rest w hbc' hw hb.1 hb.2.1 hb.2.2
                        · rw [show matchSAN (c :: (rest ++ '\x7b' :: w))
                              = matchSAN ((c :: rest) ++ '\x7b' :: w) from rfl,
                            matchSAN_extend (c :: rest) w, hms]
                          simp only [Option.map_none', Option.map_some']
                          have hsh := matchSAN_shape (c :: rest) q hms
                          have hsuf : bracesClosed q.2 :=
                            bracesClosed_suffix q.1 q.2 (by rw [← hsh.1]; exact hbc)
                          have hlen : q.2.length ≤ n
                              ∧ q.2.length + (w.length + 1) ≤ F' ∧ q.2.length ≤ G' := by
                            have hL : rest.length + 1 = q.1.length + q.2.length := by
                              have := congrArg List.length hsh.1
                              simpa using this
                            have h1L : 1 ≤ q.1.length := List.length_pos.mpr hsh.2
                            simp at hn hF hG
                            omega
                          rw [ih F' G' q.2 w hsuf hw hlen.1 hlen.2.1 hlen.2.2]
                      · rw [show matchMoveNum (c :: (rest ++ '\x7b' :: w))
                            = matchMoveNum ((c :: rest) ++ '\x7b' :: w) from rfl,
                          matchMoveNum_extend_some (c :: rest) w q hmm]
                        simp only [Option.map_none', Option.map_some']
                        have hsh := matchMoveNum_shape (c :: rest) q hmm
                        have hsuf : bracesClosed q.2 :=
                          bracesClosed_suffix q.1 q.2 (by rw [← hsh.1]; exact hbc)
                        have hlen : q.2.length ≤ n
                            ∧ q.2.length + (w.length + 1) ≤ F' ∧ q.2.length ≤ G' := by
                          have hL : rest.length + 1 = q.1.length + q.2.length := by
                            have := congrArg List.length hsh.1
                            simpa using this
                          have h1L : 1 ≤ q.1.length := List.length_pos.mpr hsh.2
                          simp at hn hF hG
                          omega
                        rw [ih F' G' q.2 w hsuf hw hlen.1 hlen.2.1 hlen.2.2]
                    · rw [show matchResult (c :: (rest ++ '\x7b' :: w))
                          = matchResult ((c :: rest) ++ '\x7b' :: w) from rfl,
                        matchResult_extend (c :: rest) w, hmr]
                      simp only [Option.map_none', Option.map_some']
                      have hsh := matchResult_shape (c :: rest) q hmr
                      have hsuf : bracesClosed q.2 :=
                        bracesClosed_suffix q.1 q.2 (by rw [← hsh.1]; exact hbc)
                      have hlen : q.2.length ≤ n
                          ∧ q.2.length + (w.length + 1) ≤ F' ∧ q.2.length ≤ G' := by
                        have hL : rest.length + 1 = q.1.length + q.2.length := by
                          have := congrArg List.length hsh.1
                          simpa using this
                        have h1L : 1 ≤ q.1.length := List.length_pos.mpr hsh.2
                        simp at hn hF hG
                        omega
                      rw [ih F' G' q.2 w hsuf hw hlen.1 hlen.2.1 hlen.2.2]

/-- C8: for an input movetext `a ++ '\x7b' :: w` whose marked `'\x7b'` is the
first unmatched opening brace (every brace inside `a` is closed later, and no
`'\x7d'` follows in `w`), the tokenizer emits exactly the tokens of `a` alone:
nothing at or after the unmatched brace produces a token, and the (total)
function raises no exception. -/
theorem C8_unterminated_comment_drops_rest (a w : List Char)
    (h1 : ∀ a₁ a₂, a = a₁ ++ '\x7b' :: a₂ → '\x7d' ∈ a₂)
    (h2 : '\x7d' ∉ w) :
    tokenize (String.mk (a ++ '\x7b' :: w)) = tokenize (String.mk a) := by
  show tokenizeAux (a ++ '\x7b' :: w).length (a ++ '\x7b' :: w) = tokenizeAux a.length a
  exact tokenizeAux_drop a.length (a ++ '\x7b' :: w).length a.length a w h1 h2
    le_rfl (by simp) le_rfl

/-- Witness for C8: appending an unterminated comment to `"1. e4 e5 "` leaves
its token stream unchanged. -/
theorem C8_unterminated_comment_drops_rest_witness :
    ('\x7d' ∉ " oops".data)
    ∧ tokenize (String.mk ("1. e4 e5 ".data ++ '\x7b' :: " oops".data))
        = tokenize (String.mk "1. e4 e5 ".data) := by
  refine ⟨by decide, ?_⟩
  exact C8_unterminated_comment_drops_rest "1. e4 e5 ".data " oops".data
    (fun a₁ a₂ heq => by
      have hmem : '\x7b' ∈ "1. e4 e5 ".data := by
        rw [heq]
        simp
      exact absurd hmem (by decide))
    (by decide)
